import Mathlib

/-!
# ghvfs: path resolution, attribute cache and lazy content nodes

A shallow embedding of `fs.go` and `files.go`.

* Go strings are lists of characters (`Str`); a nil-able slice or pointer is an `Option`.
* The remote provider (`fs.client.Repositories.GetContents`) and the wall clock (`time.Now`)
  are oracles held in `Env`; the filesystem state counts the calls made to each, so the
  n-th remote call and the n-th clock reading may each answer differently.
* The attribute cache is the LRU of `hashicorp/golang-lru`, kept as a list of key/value
  pairs with the most recently used pair first.
-/

namespace ghvfs

/-- A Go string. -/
abbrev Str := List Char

/-- A Go byte slice. -/
abbrev Bytes := List UInt8

/-- Value of `fuse.Status`. -/
abbrev Status := Nat

/-- Status `fuse.OK`. -/
def OK : Status := 0
/-- Status `fuse.ENOENT` (not found). -/
def ENOENT : Status := 2
/-- Status `fuse.EACCES` (access denied). -/
def EACCES : Status := 13
/-- Status `fuse.ENOTDIR` (not a directory). -/
def ENOTDIR : Status := 20
/-- Status `fuse.ENOSYS`, which `fuse.ToStatus` gives an error that is no system error. -/
def ENOSYS : Status := 38

/-- File type bits `fuse.S_IFDIR`. -/
def S_IFDIR : Nat := 0o040000
/-- File type bits `fuse.S_IFREG`. -/
def S_IFREG : Nat := 0o100000
/-- File type mask `syscall.S_IFMT`. -/
def S_IFMT : Nat := 0o170000

/-- Separator `os.PathSeparator`. -/
def PathSeparator : Char := '/'

/-- The fields of `fuse.Attr` that the program writes; every other field stays zero. -/
structure Attr where
  size : Nat
  atime : Nat
  mtime : Nat
  ctime : Nat
  mode : Nat
  deriving DecidableEq, Repr

/-- Entry `fuse.DirEntry`. -/
structure DirEntry where
  name : Str
  mode : Nat
  deriving DecidableEq, Repr

/-- Cached value `stat` of `fs.go`. -/
structure stat where
  attr : Option Attr
  status : Status
  entries : Option (List DirEntry)
  deriving DecidableEq, Repr

/-- Outcome of the method `GetContent` of a `github.RepositoryContent`: the decoded content
with a nil error; an error (content that is no base64, or an encoding that is not supported),
which `fuse.ToStatus` turns into `ENOSYS`; or the nil pointer dereference of `*r.Content` when
the encoding is base64 and the field `Content` is nil. -/
inductive GetContentOutcome where
  | content (c : Bytes)
  | error
  | panic
  deriving DecidableEq, Repr

/-- What the getters of a `github.RepositoryContent` return: `GetType`, `GetName`,
`GetSize`, and `GetContent`. -/
structure RepositoryContent where
  type : Str
  name : Str
  size : Int
  content : GetContentOutcome
  deriving DecidableEq, Repr

/-- Result `(fc, ds, _, err)` of `Repositories.GetContents`; `err` carries the status
that `fuse.ToStatus` gives the error. -/
structure GetContentsResult where
  fc : Option RepositoryContent
  ds : Option (List RepositoryContent)
  err : Option Status
  deriving DecidableEq, Repr

/-- The environment of the filesystem: the remote provider, answering the `i`-th call
`GetContents(org, repo, path, ref)`, the clock, answering the `i`-th `time.Now()`, and the
configured cache size. -/
structure Env where
  GetContents : Nat → Str → Str → Str → Str → GetContentsResult
  now : Nat → Nat
  cacheSize : Nat

/-! ## strings.SplitN, filepath.Join -/

/-- Cut `s` at the first occurrence of `c` (`strings.Index` and the two slices taken
around it in `genSplit`). -/
def cut (c : Char) : Str → Option (Str × Str)
  | [] => none
  | x :: xs =>
    if x = c then some ([], xs)
    else match cut c xs with
      | none => none
      | some (a, b) => some (x :: a, b)

/-- Go `strings.SplitN(s, sep, n)` for a one-character separator and `n ≥ 0`: at most `n`
parts, the last one being the unsplit remainder. -/
def SplitN : Str → Char → Nat → List Str
  | _, _, 0 => []
  | s, _, 1 => [s]
  | s, c, n + 2 =>
    match cut c s with
    | none => [s]
    | some (a, rest) => a :: SplitN rest c (n + 1)

/-- Go `strings.Split(s, sep)`: all the parts. -/
def Split (s : Str) (c : Char) : List Str := SplitN s c (s.length + 1)

/-- Go `strings.Join(parts, sep)` for a one-character separator. -/
def joinSep (c : Char) : List Str → Str
  | [] => []
  | [a] => a
  | a :: b :: rest => a ++ c :: joinSep c (b :: rest)

/-- One element of a path pushed on the stack of elements kept so far (most recent first),
following the rules of `filepath.Clean`: empty and `.` elements are dropped, `..` removes the
element before it, or is dropped at the root, or is kept at the start of a relative path. -/
def cleanPush (rooted : Bool) (st : List Str) (e : Str) : List Str :=
  if e = [] ∨ e = ['.'] then st
  else if e = ['.', '.'] then
    match st with
    | [] => if rooted then [] else [e]
    | top :: below => if top = ['.', '.'] then e :: st else below
  else e :: st

/-- Go `filepath.Clean` on a Unix path. -/
def Clean (path : Str) : Str :=
  if path = [] then ['.']
  else
    let rooted := path.head? = some PathSeparator
    let kept := ((Split path PathSeparator).foldl (cleanPush rooted) []).reverse
    let body := joinSep PathSeparator kept
    if rooted then PathSeparator :: body
    else if body = [] then ['.'] else body

/-- Go `filepath.Join(a, b)`: the elements from the first non-empty one on are joined with
the separator and cleaned. -/
def Join (a b : Str) : Str :=
  if a ≠ [] then Clean (a ++ PathSeparator :: b)
  else if b ≠ [] then Clean b
  else []

/-! ## The LRU cache -/

/-- The cache, most recently used entry first. -/
abbrev Cache := List (Str × stat)

/-- The value stored under a key. -/
def Cache.lookup (k : Str) : Cache → Option stat
  | [] => none
  | (k', v) :: c => if k' = k then some v else Cache.lookup k c

/-- The cache without the key. -/
def Cache.remove (k : Str) : Cache → Cache
  | [] => []
  | (k', v) :: c => if k' = k then Cache.remove k c else (k', v) :: Cache.remove k c

/-- Method `lru.Cache.Get`: a hit moves the entry to the front. -/
def Cache.Get (c : Cache) (k : Str) : Option stat × Cache :=
  match Cache.lookup k c with
  | some v => (some v, (k, v) :: Cache.remove k c)
  | none => (none, c)

/-- Method `lru.Cache.Add` for a cache of the given size: an existing key is moved to the
front with the new value; a new key is pushed at the front and the oldest entry is removed
when the size is exceeded. -/
def Cache.Add (size : Nat) (c : Cache) (k : Str) (v : stat) : Cache :=
  match Cache.lookup k c with
  | some _ => (k, v) :: Cache.remove k c
  | none =>
    if ((k, v) :: c).length > size then ((k, v) :: c).dropLast else (k, v) :: c

/-- The keys of the `m` most recently used entries of the cache. -/
def Cache.recent (m : Nat) (c : Cache) : List Str := (c.take m).map Prod.fst

/-! ## The filesystem -/

/-- State of a `gfs`: the cache, the number of remote calls issued so far and the number of
clock readings taken so far. -/
structure gfs where
  cache : Cache
  calls : Nat
  ticks : Nat
  deriving DecidableEq, Repr

/-- Call `time.Now()`. -/
def timeNow (env : Env) (fs : gfs) : Nat × gfs :=
  (env.now fs.ticks, { fs with ticks := fs.ticks + 1 })

/-- Call `fs.client.Repositories.GetContents(ctx, org, repo, path, &opt)` with
`opt.Ref = ref`. -/
def callGetContents (env : Env) (fs : gfs) (org repo path ref : Str) :
    GetContentsResult × gfs :=
  (env.GetContents fs.calls org repo path ref, { fs with calls := fs.calls + 1 })

/-- Function `newDirInfo(mask)`. -/
def newDirInfo (env : Env) (fs : gfs) (mask : Nat) : Attr × gfs :=
  let (now, fs) := timeNow env fs
  ({ size := 0, atime := now, mtime := now, ctime := now, mode := S_IFDIR ||| mask }, fs)

/-- Function `newFileInfo()`. -/
def newFileInfo (env : Env) (fs : gfs) : Attr × gfs :=
  let (now, fs) := timeNow env fs
  ({ size := 0, atime := now, mtime := now, ctime := now, mode := S_IFREG ||| 0o444 }, fs)

/-- Conversion `uint64(n)` of a Go `int`. -/
def uint64 (n : Int) : Nat := (n % 2 ^ 64).toNat

/-- Getter `fc.GetSize()`, which is zero on a nil receiver. -/
def GetSize (fc : Option RepositoryContent) : Int :=
  match fc with
  | none => 0
  | some c => c.size

/-- Method `gfs.getContent(org, repo, id, path)`. -/
def getContent (env : Env) (fs : gfs) (org repo id path : Str) :
    (Option Attr × Status) × gfs :=
  let (r, fs) := callGetContents env fs org repo path id
  if r.err.isSome then ((none, ENOENT), fs)
  else
    match r.ds with
    | none =>
      let (attr, fs) := newFileInfo env fs
      ((some { attr with size := uint64 (GetSize r.fc) }, OK), fs)
    | some _ =>
      let (attr, fs) := newDirInfo env fs 0o555
      ((some attr, OK), fs)

/-- Method `gfs.GetAttr(name)`. -/
def GetAttr (env : Env) (fs : gfs) (name : Str) : (Option Attr × Status) × gfs :=
  match Cache.Get fs.cache name with
  | (some c, cache) => ((c.attr, c.status), { fs with cache := cache })
  | (none, _) =>
    let parts := SplitN name PathSeparator 4
    if parts.length ≤ 3 then
      let (dirAttr, fs) := newDirInfo env fs 0o111
      ((some dirAttr, OK), fs)
    else
      let ((attr, status), fs) :=
        getContent env fs (parts.getD 0 []) (parts.getD 1 []) (parts.getD 2 []) (parts.getD 3 [])
      let cache := Cache.Add env.cacheSize fs.cache name (stat.mk attr status none)
      ((attr, status), { fs with cache := cache })

/-- Go `append(entries, e)` on a slice that may be nil. -/
def appendEntry (entries : Option (List DirEntry)) (e : DirEntry) : Option (List DirEntry) :=
  match entries with
  | none => some [e]
  | some es => some (es ++ [e])

/-- One round of the loop over `ds` in `OpenDir`. -/
def openDirStep (env : Env) (name : Str) (acc : Option (List DirEntry) × gfs)
    (ent : RepositoryContent) : Option (List DirEntry) × gfs :=
  let entries := appendEntry acc.1 { name := ent.name, mode := 0o444 }
  let (attr, fs) :=
    if ent.type = "file".toList then newFileInfo env acc.2 else newDirInfo env acc.2 0o555
  let attr := { attr with size := uint64 ent.size }
  let cache := Cache.Add env.cacheSize fs.cache (Join name ent.name) (stat.mk (some attr) OK none)
  (entries, { fs with cache := cache })

/-- The end of `OpenDir` (lines 174 to 198), reached with the remote list `ds`: the loop over
the children, then the entry of the directory itself. -/
def openDirStore (env : Env) (fs : gfs) (name : Str) (ds : List RepositoryContent) :
    (Option (List DirEntry) × Status) × gfs :=
  let (entries, fs) := ds.foldl (openDirStep env name) (none, fs)
  let (attr, fs) := newDirInfo env fs 0o555
  let cache := Cache.Add env.cacheSize fs.cache name (stat.mk (some attr) OK entries)
  ((entries, OK), { fs with cache := cache })

/-- Method `gfs.OpenDir(name)`. -/
def OpenDir (env : Env) (fs : gfs) (name : Str) : (Option (List DirEntry) × Status) × gfs :=
  let (cached, cache) := Cache.Get fs.cache name
  let fs := { fs with cache := cache }
  match cached.bind (fun c => c.entries.map (fun es => (es, c.status))) with
  | some (es, st) => ((some es, st), fs)
  | none =>
    let parts := SplitN name PathSeparator 4
    if parts.length < 3 then ((none, EACCES), fs)
    else
      let org := parts.getD 0 []
      let repo := parts.getD 1 []
      let path := if parts.length = 4 then parts.getD 3 [] else []
      let (r, fs) := callGetContents env fs org repo path (parts.getD 2 [])
      if r.err.isSome then ((none, ENOENT), fs)
      else
        match r.ds with
        | none => ((none, ENOTDIR), fs)
        | some ds => openDirStore env fs name ds

/-! ## Content nodes -/

/-- Node `fnode` of `files.go`; `content = none` is the nil buffer. -/
structure fnode where
  flags : Nat
  org : Str
  repo : Str
  ref : Str
  path : Str
  content : Option Bytes
  deriving DecidableEq, Repr

/-- Function `newContentNode`. -/
def newContentNode (flags : Nat) (org repo ref path : Str) : Option fnode × Status :=
  (some { flags := flags, org := org, repo := repo, ref := ref, path := path, content := none },
    OK)

/-- Method `gfs.Open(name, flags)`. -/
def Open (name : Str) (flags : Nat) : Option fnode × Status :=
  let parts := SplitN name PathSeparator 4
  if parts.length ≠ 4 then (none, ENOENT)
  else newContentNode flags (parts.getD 0 []) (parts.getD 1 []) (parts.getD 2 []) (parts.getD 3 [])

/-- Outcome of `fnode.Read`: the returned pair, or a run-time panic. -/
inductive ReadOutcome where
  | panic
  | ret (data : Option Bytes) (status : Status)
  deriving DecidableEq, Repr

/-- Wrap-around of `int64` arithmetic. -/
def wrap64 (x : Int) : Int := (x + 2 ^ 63) % 2 ^ 64 - 2 ^ 63

/-- Slice expression `content[start:end]`, which panics (`none`) out of range. -/
def sliceBytes (content : Bytes) (start stop : Int) : Option Bytes :=
  if 0 ≤ start ∧ start ≤ stop ∧ stop ≤ (content.length : Int) then
    some ((content.take stop.toNat).drop start.toNat)
  else none

/-- The second half of `fnode.Read` (lines 46 to 55): the slice of the loaded buffer. -/
def readSlice (content : Bytes) (buflen : Nat) (off : Int) : ReadOutcome :=
  let start := off
  let stop := wrap64 (off + (buflen : Int))
  let (start, stop) := if start > (content.length : Int) then ((0 : Int), (0 : Int)) else (start, stop)
  let stop := if stop > (content.length : Int) then (content.length : Int) else stop
  match sliceBytes content start stop with
  | none => ReadOutcome.panic
  | some d => ReadOutcome.ret (some d) OK

/-- Method `fnode.Read(buf, off)` with `buflen = len(buf)`. The conversion `[]byte(content)` gives
a non-nil slice also for the empty string, so the loaded buffer is `some content`; a nil `fc`
makes `fc.GetContent()` dereference a nil pointer, and so does a base64 encoding without content:
both are run-time panics. -/
def Read (env : Env) (fs : gfs) (f : fnode) (buflen : Nat) (off : Int) :
    ReadOutcome × fnode × gfs :=
  match f.content with
  | some content => (readSlice content buflen off, f, fs)
  | none =>
    let (r, fs) := callGetContents env fs f.org f.repo f.path f.ref
    match r.err with
    | some st => (ReadOutcome.ret none st, f, fs)
    | none =>
      match r.fc with
      | none => (ReadOutcome.panic, f, fs)
      | some fc =>
        match fc.content with
        | GetContentOutcome.panic => (ReadOutcome.panic, f, fs)
        | GetContentOutcome.error => (ReadOutcome.ret none ENOSYS, f, fs)
        | GetContentOutcome.content content =>
          let f := { f with content := some content }
          (readSlice content buflen off, f, fs)

/-- Successive `Read` calls on one node, each with its buffer length and offset. -/
def readMany (env : Env) (fs : gfs) (f : fnode) :
    List (Nat × Int) → List ReadOutcome × fnode × gfs
  | [] => ([], f, fs)
  | (buflen, off) :: rest =>
    let (r, f, fs) := Read env fs f buflen off
    let (rs, f, fs) := readMany env fs f rest
    (r :: rs, f, fs)

/-! ## Sequences of calls -/

/-- A call received from the host: `GetAttr`, `OpenDir`, `Open`, or `Read` on the `h`-th node
opened so far. -/
inductive Op where
  | getAttr (name : Str)
  | openDir (name : Str)
  | openFile (name : Str) (flags : Nat)
  | read (h : Nat) (buflen : Nat) (off : Int)
  deriving DecidableEq, Repr

/-- The filesystem together with the nodes handed out by `Open`. -/
structure World where
  fs : gfs
  nodes : List fnode
  deriving DecidableEq, Repr

/-- The world after `NewFS`: an empty cache and no node. -/
def World.init : World := { fs := { cache := [], calls := 0, ticks := 0 }, nodes := [] }

/-- The world after one call. -/
def step (env : Env) (w : World) : Op → World
  | Op.getAttr name => { w with fs := (GetAttr env w.fs name).2 }
  | Op.openDir name => { w with fs := (OpenDir env w.fs name).2 }
  | Op.openFile name flags =>
    match (Open name flags).1 with
    | none => w
    | some f => { w with nodes := w.nodes ++ [f] }
  | Op.read h buflen off =>
    match w.nodes.get? h with
    | none => w
    | some f =>
      let r := Read env w.fs f buflen off
      { fs := r.2.2, nodes := w.nodes.set h r.2.1 }

/-- The world after a sequence of calls. -/
def run (env : Env) (w : World) (ops : List Op) : World := ops.foldl (step env) w

/-! ## Parts of `OpenDir` -/

/-- Whether the cache holds a listing for the path: the test `c.entries != nil` on a hit. -/
def hasCachedListing (fs : gfs) (name : Str) : Bool :=
  match Cache.lookup name fs.cache with
  | some c => c.entries.isSome
  | none => false

/-- The answer to the remote query that `OpenDir(name)` issues when it has no cached listing
and the path has at least three segments. -/
def openDirQuery (env : Env) (fs : gfs) (name : Str) : GetContentsResult :=
  env.GetContents fs.calls ((SplitN name PathSeparator 4).getD 0 [])
    ((SplitN name PathSeparator 4).getD 1 [])
    (if (SplitN name PathSeparator 4).length = 4 then (SplitN name PathSeparator 4).getD 3 []
      else [])
    ((SplitN name PathSeparator 4).getD 2 [])

/-- The filesystem when `OpenDir(name)` has looked the path up in the cache. -/
def afterLookup (fs : gfs) (name : Str) : gfs := { fs with cache := (Cache.Get fs.cache name).2 }

/-- The filesystem when `OpenDir(name)` has looked the path up and queried the remote. -/
def afterQuery (fs : gfs) (name : Str) : gfs :=
  { fs with cache := (Cache.Get fs.cache name).2, calls := fs.calls + 1 }

/-- The entry that the loop of `OpenDir` appends for a remote child. -/
def dirEntryOf (ent : RepositoryContent) : DirEntry := { name := ent.name, mode := 0o444 }

/-- The kind that a `fuse.DirEntry` carries: the file type bits of its mode. -/
def DirEntry.kindBits (e : DirEntry) : Nat := e.mode &&& S_IFMT

/-- The value that the loop of `OpenDir` stores in the cache for a remote child when the clock
reads `t`: the attribute of `newFileInfo()` for the type `file` and of `newDirInfo(0555)` for
any other type, with the child's size, the status OK and no listing. -/
def childStat (t : Nat) (ent : RepositoryContent) : stat :=
  { attr := some { size := uint64 ent.size, atime := t, mtime := t, ctime := t,
                   mode := if ent.type = "file".toList then S_IFREG ||| 0o444
                           else S_IFDIR ||| 0o555 },
    status := OK, entries := none }

/-- The value that `OpenDir` stores in the cache for the listed path when the clock reads `t`:
the attribute of `newDirInfo(0555)`, the status OK and the entries built from the remote list
(nil when the list is empty). -/
def listingStat (t : Nat) (ds : List RepositoryContent) : stat :=
  { attr := some { size := 0, atime := t, mtime := t, ctime := t, mode := S_IFDIR ||| 0o555 },
    status := OK,
    entries := if ds = [] then none else some (ds.map dirEntryOf) }

/-- The remote listing that `OpenDir(name)` writes into the cache, if it writes one: there is no
cached listing, the path has at least three segments, and the remote answers with a list. -/
def openDirListing (env : Env) (fs : gfs) (name : Str) : Option (List RepositoryContent) :=
  if hasCachedListing fs name then none
  else if (SplitN name PathSeparator 4).length < 3 then none
  else if (openDirQuery env fs name).err.isSome then none
  else (openDirQuery env fs name).ds

/-- The keys whose entries a call writes over: an `OpenDir` that fetches a remote listing
writes the entry of each listed child and the entry of the listed path; no other call writes
over an entry. -/
def rewrittenKeys (env : Env) (fs : gfs) : Op → List Str
  | Op.openDir name =>
    match openDirListing env fs name with
    | none => []
    | some ds => name :: ds.map (fun e => Join name e.name)
  | _ => []

/-- The keys that a call adds to the cache: `GetAttr` adds the path when it is not cached and
has four segments; `OpenDir` adds what it writes over; `Open` and `Read` add nothing. -/
def addedKeys (env : Env) (fs : gfs) : Op → List Str
  | Op.getAttr name =>
    if Cache.lookup name fs.cache = none ∧ ¬ (SplitN name PathSeparator 4).length ≤ 3 then [name]
    else []
  | Op.openDir name => rewrittenKeys env fs (Op.openDir name)
  | _ => []

/-- The keys of the cache. -/
def Cache.keys (c : Cache) : List Str := c.map Prod.fst

/-- The cache has unique keys, and it holds an entry for `p` or else is full. -/
def heldOrFull (size : Nat) (p : Str) (c : Cache) : Prop :=
  (Cache.keys c).Nodup ∧ (Cache.lookup p c ≠ none ∨ size ≤ c.length)

/-- A file name: not empty, without separator, and neither `.` nor `..`. -/
def ValidName (s : Str) : Prop :=
  s ≠ [] ∧ PathSeparator ∉ s ∧ s ≠ ['.'] ∧ s ≠ ['.', '.']

instance (s : Str) : Decidable (ValidName s) := by
  unfold ValidName
  exact inferInstance

/-- A path as the host hands it to the filesystem: the empty path of the root, or file names
joined by separators. -/
def HostPath (name : Str) : Prop :=
  name = [] ∨ ∀ c ∈ Split name PathSeparator, ValidName c

instance (name : Str) : Decidable (HostPath name) := by
  unfold HostPath
  exact inferInstance

/-- Every key of the cache has at least three segments. -/
def concreteKeys (c : Cache) : Prop :=
  ∀ k ∈ Cache.keys c, 3 ≤ (SplitN k PathSeparator 4).length

/-! ## Sample environments -/

/-- A sample repository: the root lists a directory `src` and a file `README`, `src` lists a
file `a.go`, `README` is a file of five bytes, and every other path is an error. -/
def sampleRemote : Nat → Str → Str → Str → Str → GetContentsResult :=
  fun _ _ _ path _ =>
    if path = [] then
      { fc := none,
        ds := some [{ type := "dir".toList, name := "src".toList, size := 0, content := GetContentOutcome.content [] },
                    { type := "file".toList, name := "README".toList, size := 5, content := GetContentOutcome.content [] }],
        err := none }
    else if path = "src".toList then
      { fc := none,
        ds := some [{ type := "file".toList, name := "a.go".toList, size := 3, content := GetContentOutcome.content [] }],
        err := none }
    else if path = "README".toList then
      { fc := some { type := "file".toList, name := "README".toList, size := 5,
                     content := GetContentOutcome.content [1, 2, 3, 4, 5] },
        ds := none, err := none }
    else { fc := none, ds := none, err := some ENOSYS }

/-- The sample repository behind a cache of the given size, with a clock that advances by one
at every reading. -/
def sampleEnv (cacheSize : Nat) : Env :=
  { GetContents := sampleRemote, now := fun i => 1000 + i, cacheSize := cacheSize }

/-- A remote that lists a single child, named `..`, under every path. -/
def dotdotRemote : Nat → Str → Str → Str → Str → GetContentsResult :=
  fun _ _ _ _ _ =>
    { fc := none,
      ds := some [{ type := "dir".toList, name := "..".toList, size := 0, content := GetContentOutcome.content [] }],
      err := none }

/-- The remote `dotdotRemote` behind a cache of size four. -/
def dotdotEnv : Env :=
  { GetContents := dotdotRemote, now := fun i => 1000 + i, cacheSize := 4 }

/-- The filesystem after `NewFS`. -/
def gfs.init : gfs := { cache := [], calls := 0, ticks := 0 }

/-- A node that holds five bytes. -/
def loadedNode : fnode :=
  { flags := 0, org := "acme".toList, repo := "myrepo".toList, ref := "main".toList,
    path := "README".toList, content := some [1, 2, 3, 4, 5] }

/-- The synthetic directory attribute of `newDirInfo(mask)` at time `t`. -/
def dirAttr (mask t : Nat) : Attr :=
  { size := 0, atime := t, mtime := t, ctime := t, mode := S_IFDIR ||| mask }

/-! ## Lemmas on strings and slices -/

theorem cut_eq_none {c : Char} {s : Str} : cut c s = none ↔ c ∉ s := by
  induction s with
  | nil => simp [cut]
  | cons x xs ih =>
    unfold cut
    by_cases h : x = c
    · simp [h]
    · simp only [h, if_false]
      cases hc : cut c xs with
      | none => simp [hc] at ih; simp [ih, Ne.symm h]
      | some p => simp [hc] at ih; simp [ih]

theorem cut_eq_some {c : Char} {s a b : Str} (h : cut c s = some (a, b)) :
    s = a ++ c :: b ∧ c ∉ a := by
  induction s generalizing a with
  | nil => simp [cut] at h
  | cons x xs ih =>
    unfold cut at h
    by_cases hx : x = c
    · simp [hx] at h
      obtain ⟨rfl, rfl⟩ := h
      simp [hx]
    · simp only [hx, if_false] at h
      cases hc : cut c xs with
      | none => simp [hc] at h
      | some p =>
        obtain ⟨a', b'⟩ := p
        simp [hc] at h
        obtain ⟨rfl, rfl⟩ := h
        obtain ⟨h1, h2⟩ := ih hc
        constructor
        · simp [h1]
        · simp [h2, Ne.symm hx]

theorem wrap64_of_lt (x : Int) (h0 : 0 ≤ x) (h1 : x < 2 ^ 63) : wrap64 x = x := by
  unfold wrap64
  have h : (x + 2 ^ 63) % 2 ^ 64 = x + 2 ^ 63 :=
    Int.emod_eq_of_lt (by omega) (by omega)
  rw [h]; omega

theorem sliceBytes_nat (content : Bytes) (a b : Nat) (hab : a ≤ b) (hb : b ≤ content.length) :
    sliceBytes content (a : Int) (b : Int) = some ((content.take b).drop a) := by
  unfold sliceBytes
  have h : (0 : Int) ≤ (a : Int) ∧ (a : Int) ≤ (b : Int) ∧ (b : Int) ≤ (content.length : Int) := by
    omega
  rw [if_pos h]
  simp

theorem readSlice_loaded (content : Bytes) (n off : Nat) (hfit : content.length + n < 2 ^ 63) :
    readSlice content n off =
      ReadOutcome.ret (some ((content.take (min content.length (off + n))).drop
        (min content.length off))) OK := by
  unfold readSlice
  by_cases h : (off : Int) > (content.length : Int)
  · have h' : content.length < off := by omega
    have h0 : ¬ ((0 : Int) > (content.length : Int)) := by omega
    simp only [h, if_true, h0, if_false]
    have := sliceBytes_nat content 0 0 (le_refl 0) (Nat.zero_le _)
    simp only [Nat.cast_zero] at this
    rw [this]
    have e1 : min content.length off = content.length := by omega
    have e2 : min content.length (off + n) = content.length := by omega
    simp [e1, e2]
  · have h' : off ≤ content.length := by omega
    have hw : wrap64 ((off : Int) + (n : Int)) = ((off + n : Nat) : Int) := by
      rw [wrap64_of_lt] <;> push_cast <;> omega
    simp only [h, if_false, hw]
    have e1 : min content.length off = off := by omega
    rw [e1]
    by_cases h2 : ((off + n : Nat) : Int) > (content.length : Int)
    · have e2 : min content.length (off + n) = content.length := by omega
      simp only [h2, if_true]
      rw [sliceBytes_nat content off content.length h' (le_refl _), e2]
    · have e2 : min content.length (off + n) = off + n := by omega
      simp only [h2, if_false]
      rw [sliceBytes_nat content off (off + n) (by omega) (by omega), e2]

theorem Read_of_loaded (env : Env) (fs : gfs) (f : fnode) (content : Bytes) (buflen : Nat)
    (off : Int) (hc : f.content = some content) :
    Read env fs f buflen off = (readSlice content buflen off, f, fs) := by
  unfold Read
  rw [hc]

theorem readMany_of_loaded (env : Env) (fs : gfs) (f : fnode) (content : Bytes)
    (hc : f.content = some content) (rs : List (Nat × Int)) :
    (readMany env fs f rs).2 = (f, fs) := by
  induction rs with
  | nil => rfl
  | cons r rest ih =>
    obtain ⟨n, off⟩ := r
    simp only [readMany, Read_of_loaded env fs f content n off hc]
    exact ih

theorem Read_ok_loaded (env : Env) (fs : gfs) (f : fnode) (buflen : Nat) (off : Int)
    (d : Bytes) (f' : fnode) (fs' : gfs)
    (h : Read env fs f buflen off = (ReadOutcome.ret (some d) OK, f', fs')) :
    ∃ content, f'.content = some content ∧
      (f.content = none → fs'.calls = fs.calls + 1) ∧
      (∀ c, f.content = some c → f' = f ∧ fs' = fs) := by
  unfold Read at h
  cases hc : f.content with
  | some content =>
    rw [hc] at h
    simp only [Prod.mk.injEq] at h
    obtain ⟨_, rfl, rfl⟩ := h
    exact ⟨content, hc, by simp, fun c _ => ⟨rfl, rfl⟩⟩
  | none =>
    rw [hc] at h
    simp only [callGetContents] at h
    cases he : (env.GetContents fs.calls f.org f.repo f.path f.ref).err with
    | some st => simp [he] at h
    | none =>
      cases hfc : (env.GetContents fs.calls f.org f.repo f.path f.ref).fc with
      | none => simp [he, hfc] at h
      | some fc =>
        cases hcont : fc.content with
        | panic => simp [he, hfc, hcont] at h
        | error => simp [he, hfc, hcont] at h
        | content content =>
          simp only [he, hfc, hcont, Prod.mk.injEq] at h
          obtain ⟨_, rfl, rfl⟩ := h
          exact ⟨content, rfl, by simp, by simp⟩

theorem count_of_cut_none {c : Char} {s : Str} (h : cut c s = none) : s.count c = 0 :=
  List.count_eq_zero.mpr (cut_eq_none.mp h)

theorem count_of_cut_some {c : Char} {s a b : Str} (h : cut c s = some (a, b)) :
    s.count c = b.count c + 1 := by
  obtain ⟨h1, h2⟩ := cut_eq_some h
  rw [h1, List.count_append, List.count_cons_self, List.count_eq_zero.mpr h2]
  omega

theorem SplitN_length (c : Char) (n : Nat) (s : Str) :
    (SplitN s c (n + 1)).length = min (n + 1) (s.count c + 1) := by
  induction n generalizing s with
  | zero => simp [SplitN]
  | succ n ih =>
    unfold SplitN
    cases h : cut c s with
    | none => simp [count_of_cut_none h]
    | some p =>
      obtain ⟨a, rest⟩ := p
      simp only [List.length_cons, ih rest, count_of_cut_some h]
      omega

theorem joinSep_cons (c : Char) (a : Str) (l : List Str) (hl : l ≠ []) :
    joinSep c (a :: l) = a ++ c :: joinSep c l := by
  cases l with
  | nil => exact absurd rfl hl
  | cons b rest => rfl

theorem SplitN_ne_nil (c : Char) (n : Nat) (s : Str) : SplitN s c (n + 1) ≠ [] := by
  intro h
  have := SplitN_length c n s
  rw [h] at this
  simp at this
  omega

theorem joinSep_SplitN (c : Char) (n : Nat) (s : Str) : joinSep c (SplitN s c (n + 1)) = s := by
  induction n generalizing s with
  | zero => simp [SplitN, joinSep]
  | succ n ih =>
    unfold SplitN
    cases h : cut c s with
    | none => simp [joinSep]
    | some p =>
      obtain ⟨a, rest⟩ := p
      simp only
      rw [joinSep_cons c a _ (SplitN_ne_nil c n rest), ih rest]
      exact (cut_eq_some h).1.symm

theorem SplitN_four (c : Char) (s : Str) (h : (SplitN s c 4).length = 4) :
    ∃ a b d r, SplitN s c 4 = [a, b, d, r] ∧ c ∉ a ∧ c ∉ b ∧ c ∉ d ∧
      s = a ++ c :: (b ++ c :: (d ++ c :: r)) := by
  unfold SplitN at h ⊢
  cases h1 : cut c s with
  | none => simp [h1] at h
  | some p1 =>
    obtain ⟨a, r1⟩ := p1
    simp only [h1] at h ⊢
    unfold SplitN at h ⊢
    cases h2 : cut c r1 with
    | none => simp [h2] at h
    | some p2 =>
      obtain ⟨b, r2⟩ := p2
      simp only [h2] at h ⊢
      unfold SplitN at h ⊢
      cases h3 : cut c r2 with
      | none => simp [h3] at h
      | some p3 =>
        obtain ⟨d, r3⟩ := p3
        simp only [h3] at h ⊢
        refine ⟨a, b, d, r3, by simp [SplitN], (cut_eq_some h1).2, (cut_eq_some h2).2,
          (cut_eq_some h3).2, ?_⟩
        rw [(cut_eq_some h1).1, (cut_eq_some h2).1, (cut_eq_some h3).1]

/-! ## Lemmas on the cache -/

theorem lookup_ne_none_iff (k : Str) (c : Cache) :
    Cache.lookup k c ≠ none ↔ k ∈ c.map Prod.fst := by
  induction c with
  | nil => simp [Cache.lookup]
  | cons e c ih =>
    obtain ⟨k', v⟩ := e
    unfold Cache.lookup
    rw [List.map_cons, List.mem_cons]
    by_cases h : k' = k
    · rw [if_pos h]
      constructor
      · intro _; exact Or.inl h.symm
      · intro _ hn; cases hn
    · rw [if_neg h, ih]
      constructor
      · intro hm; exact Or.inr hm
      · rintro (hm | hm)
        · exact absurd hm.symm h
        · exact hm

theorem lookup_remove_self (k : Str) (c : Cache) : Cache.lookup k (Cache.remove k c) = none := by
  induction c with
  | nil => rfl
  | cons e c ih =>
    obtain ⟨k', v⟩ := e
    unfold Cache.remove
    by_cases h : k' = k
    · rw [if_pos h]; exact ih
    · rw [if_neg h]; unfold Cache.lookup; rw [if_neg h]; exact ih

theorem lookup_remove_ne (k k' : Str) (c : Cache) (hne : k' ≠ k) :
    Cache.lookup k' (Cache.remove k c) = Cache.lookup k' c := by
  induction c with
  | nil => rfl
  | cons e c ih =>
    obtain ⟨k1, v⟩ := e
    unfold Cache.remove
    by_cases h : k1 = k
    · have h1 : k1 ≠ k' := fun h2 => hne (h2 ▸ h)
      rw [if_pos h, ih]
      conv_rhs => unfold Cache.lookup
      rw [if_neg h1]
    · rw [if_neg h]
      unfold Cache.lookup
      by_cases h2 : k1 = k'
      · rw [if_pos h2, if_pos h2]
      · rw [if_neg h2, if_neg h2]; exact ih

theorem Get_fst (c : Cache) (k : Str) : (Cache.Get c k).1 = Cache.lookup k c := by
  unfold Cache.Get
  cases h : Cache.lookup k c <;> rfl

theorem Get_of_miss (c : Cache) (k : Str) (h : Cache.lookup k c = none) :
    Cache.Get c k = (none, c) := by
  unfold Cache.Get
  rw [h]

theorem Get_of_hit (c : Cache) (k : Str) (v : stat) (h : Cache.lookup k c = some v) :
    Cache.Get c k = (some v, (k, v) :: Cache.remove k c) := by
  unfold Cache.Get
  rw [h]

theorem lookup_cons_self (k : Str) (v : stat) (c : Cache) :
    Cache.lookup k ((k, v) :: c) = some v := by
  unfold Cache.lookup
  rw [if_pos rfl]

theorem lookup_cons_ne (k k' : Str) (v : stat) (c : Cache) (h : k ≠ k') :
    Cache.lookup k' ((k, v) :: c) = Cache.lookup k' c := by
  conv_lhs => unfold Cache.lookup
  rw [if_neg h]

theorem lookup_Get (c : Cache) (k k' : Str) :
    Cache.lookup k' (Cache.Get c k).2 = Cache.lookup k' c := by
  cases h : Cache.lookup k c with
  | none => rw [Get_of_miss c k h]
  | some v =>
    rw [Get_of_hit c k v h]
    by_cases hk : k = k'
    · subst hk; rw [lookup_cons_self, h]
    · rw [lookup_cons_ne k k' v _ hk]
      exact lookup_remove_ne k k' c (Ne.symm hk)

theorem lookup_dropLast (k : Str) (c : Cache) :
    Cache.lookup k c.dropLast = Cache.lookup k c ∨ Cache.lookup k c.dropLast = none := by
  induction c with
  | nil => left; rfl
  | cons e c ih =>
    cases c with
    | nil => right; rfl
    | cons e2 c2 =>
      obtain ⟨k1, v⟩ := e
      rw [List.dropLast_cons₂]
      by_cases h : k1 = k
      · left; subst h; rw [lookup_cons_self, lookup_cons_self]
      · rw [lookup_cons_ne k1 k v _ h, lookup_cons_ne k1 k v _ h]
        exact ih

theorem lookup_Add_self (size : Nat) (hs : 1 ≤ size) (c : Cache) (k : Str) (v : stat) :
    Cache.lookup k (Cache.Add size c k v) = some v := by
  unfold Cache.Add
  cases h : Cache.lookup k c with
  | some _ => exact lookup_cons_self k v _
  | none =>
    simp only
    split_ifs with hl
    · cases c with
      | nil => simp at hl; omega
      | cons e c2 => rw [List.dropLast_cons₂]; exact lookup_cons_self k v _
    · exact lookup_cons_self k v _

theorem lookup_Add_ne (size : Nat) (c : Cache) (k k' : Str) (v : stat) (hne : k' ≠ k) :
    Cache.lookup k' (Cache.Add size c k v) = Cache.lookup k' c ∨
      Cache.lookup k' (Cache.Add size c k v) = none := by
  unfold Cache.Add
  cases h : Cache.lookup k c with
  | some _ =>
    left
    simp only
    rw [lookup_cons_ne k k' v _ (Ne.symm hne)]
    exact lookup_remove_ne k k' c hne
  | none =>
    simp only
    have e : Cache.lookup k' ((k, v) :: c) = Cache.lookup k' c :=
      lookup_cons_ne k k' v c (Ne.symm hne)
    split_ifs with hl
    · rcases lookup_dropLast k' ((k, v) :: c) with h1 | h1
      · left; rw [h1, e]
      · right; exact h1
    · left; exact e

theorem keys_Get_subset (c : Cache) (k k' : Str) (h : k' ∈ (Cache.Get c k).2.map Prod.fst) :
    k' ∈ c.map Prod.fst := by
  rw [← lookup_ne_none_iff] at h ⊢
  rwa [lookup_Get] at h

theorem keys_Add_subset (size : Nat) (c : Cache) (k k' : Str) (v : stat)
    (h : k' ∈ (Cache.Add size c k v).map Prod.fst) : k' = k ∨ k' ∈ c.map Prod.fst := by
  by_cases hk : k' = k
  · exact Or.inl hk
  · right
    rw [← lookup_ne_none_iff] at h ⊢
    rcases lookup_Add_ne size c k k' v hk with h1 | h1
    · rwa [h1] at h
    · exact absurd h1 h

/-! ## Lemmas on the filesystem operations -/

theorem newDirInfo_eq (env : Env) (fs : gfs) (mask : Nat) :
    newDirInfo env fs mask = (dirAttr mask (env.now fs.ticks), { fs with ticks := fs.ticks + 1 }) :=
  rfl

theorem getContent_calls (env : Env) (fs : gfs) (org repo id path : Str) :
    (getContent env fs org repo id path).2.calls = fs.calls + 1 := by
  unfold getContent callGetContents
  simp only
  split_ifs
  · rfl
  · cases (env.GetContents fs.calls org repo path id).ds <;> rfl

theorem getContent_cache (env : Env) (fs : gfs) (org repo id path : Str) :
    (getContent env fs org repo id path).2.cache = fs.cache := by
  unfold getContent callGetContents
  simp only
  split_ifs
  · rfl
  · cases (env.GetContents fs.calls org repo path id).ds <;> rfl

theorem GetAttr_hit (env : Env) (fs : gfs) (name : Str) (c : stat)
    (h : Cache.lookup name fs.cache = some c) :
    GetAttr env fs name =
      ((c.attr, c.status), { fs with cache := (name, c) :: Cache.remove name fs.cache }) := by
  unfold GetAttr
  rw [Get_of_hit _ _ _ h]

theorem GetAttr_miss_short (env : Env) (fs : gfs) (name : Str)
    (h : Cache.lookup name fs.cache = none) (hl : (SplitN name PathSeparator 4).length ≤ 3) :
    GetAttr env fs name =
      ((some (dirAttr 0o111 (env.now fs.ticks)), OK), { fs with ticks := fs.ticks + 1 }) := by
  unfold GetAttr
  rw [Get_of_miss _ _ h]
  simp only [hl, if_true]
  rfl

theorem GetAttr_miss_long (env : Env) (fs : gfs) (name : Str)
    (h : Cache.lookup name fs.cache = none) (hl : ¬ (SplitN name PathSeparator 4).length ≤ 3) :
    GetAttr env fs name =
      ((getContent env fs ((SplitN name PathSeparator 4).getD 0 [])
          ((SplitN name PathSeparator 4).getD 1 []) ((SplitN name PathSeparator 4).getD 2 [])
          ((SplitN name PathSeparator 4).getD 3 [])).1,
        { (getContent env fs ((SplitN name PathSeparator 4).getD 0 [])
            ((SplitN name PathSeparator 4).getD 1 []) ((SplitN name PathSeparator 4).getD 2 [])
            ((SplitN name PathSeparator 4).getD 3 [])).2 with
          cache := Cache.Add env.cacheSize fs.cache name
            (stat.mk
              (getContent env fs ((SplitN name PathSeparator 4).getD 0 [])
                ((SplitN name PathSeparator 4).getD 1 []) ((SplitN name PathSeparator 4).getD 2 [])
                ((SplitN name PathSeparator 4).getD 3 [])).1.1
              (getContent env fs ((SplitN name PathSeparator 4).getD 0 [])
                ((SplitN name PathSeparator 4).getD 1 []) ((SplitN name PathSeparator 4).getD 2 [])
                ((SplitN name PathSeparator 4).getD 3 [])).1.2 none) }) := by
  unfold GetAttr
  rw [Get_of_miss _ _ h]
  simp only [hl, if_false]
  rw [getContent_cache]

/-! ## The claims -/

/-- C1: on a loaded content node whose buffer has length `L`, `Read(n, offset)` with
`offset ≥ 0` succeeds, changes neither the node nor the filesystem, and returns exactly the
bytes of the buffer at positions `[min(L, offset), min(L, offset + n))`: that is
`min(L, offset + n) - min(L, offset)` bytes, and none when `offset ≥ L`. The two buffers are
in memory together, so their lengths add up to less than `2 ^ 63`. -/
theorem Read_loaded_returns_clamped_range (env : Env) (fs : gfs) (f : fnode) (content : Bytes)
    (n off : Nat) (hloaded : f.content = some content)
    (hfit : content.length + n < 2 ^ 63) :
    Read env fs f n (off : Int) =
        (ReadOutcome.ret (some ((content.take (min content.length (off + n))).drop
          (min content.length off))) OK, f, fs) ∧
      ((content.take (min content.length (off + n))).drop (min content.length off)).length =
        min content.length (off + n) - min content.length off ∧
      (content.length ≤ off →
        (content.take (min content.length (off + n))).drop (min content.length off) = []) := by
  refine ⟨?_, ?_, ?_⟩
  · rw [Read_of_loaded env fs f content n off hloaded, readSlice_loaded content n off hfit]
  · rw [List.length_drop, List.length_take]
    omega
  · intro h
    apply List.eq_nil_of_length_eq_zero
    rw [List.length_drop, List.length_take]
    omega

/-- C1, at a node of five bytes: reading two bytes at offset four gives the last byte. -/
theorem Read_loaded_returns_clamped_range_witness :
    loadedNode.content = some [1, 2, 3, 4, 5] ∧
      Read (sampleEnv 2) gfs.init loadedNode 2 ((4 : Nat) : Int) =
        (ReadOutcome.ret (some [5]) OK, loadedNode, gfs.init) :=
  ⟨rfl, (Read_loaded_returns_clamped_range (sampleEnv 2) gfs.init loadedNode [1, 2, 3, 4, 5] 2 4
    rfl (by norm_num)).1⟩

/-- C5: once a `Read` on a node has returned data with status OK, the node holds a buffer,
and every later `Read` on it, whatever its arguments and whatever the filesystem has done in
between, leaves the node (so its buffer) and the filesystem (so the count of remote calls)
as they were; a node that was unloaded before that first `Read` has then issued exactly one
remote call, and still exactly one after any further sequence of reads. -/
theorem Read_ok_loads_for_good (env : Env) (fs : gfs) (f : fnode) (buflen : Nat) (off : Int)
    (d : Bytes) (f' : fnode) (fs' : gfs)
    (h : Read env fs f buflen off = (ReadOutcome.ret (some d) OK, f', fs')) :
    ∃ content, f'.content = some content ∧
      (∀ (fs2 : gfs) (n2 : Nat) (off2 : Int), (Read env fs2 f' n2 off2).2 = (f', fs2)) ∧
      (∀ rs, (readMany env fs' f' rs).2 = (f', fs')) ∧
      (f.content = none →
        ∀ rs, (readMany env fs f ((buflen, off) :: rs)).2.2.calls = fs.calls + 1 ∧
          (readMany env fs f ((buflen, off) :: rs)).2.1.content = some content) := by
  obtain ⟨content, hc, hcalls, _⟩ := Read_ok_loaded env fs f buflen off d f' fs' h
  refine ⟨content, hc, ?_, ?_, ?_⟩
  · intro fs2 n2 off2
    rw [Read_of_loaded env fs2 f' content n2 off2 hc]
  · intro rs
    exact readMany_of_loaded env fs' f' content hc rs
  · intro hnone rs
    have e : (readMany env fs f ((buflen, off) :: rs)).2 = (readMany env fs' f' rs).2 := by
      simp only [readMany, h]
    rw [e, readMany_of_loaded env fs' f' content hc rs]
    exact ⟨hcalls hnone, hc⟩

/-- C5, at an unloaded node for the file `README`: the first read fetches the five bytes. -/
theorem Read_ok_loads_for_good_witness :
    Read (sampleEnv 2) gfs.init { loadedNode with content := none } 2 0 =
        (ReadOutcome.ret (some [1, 2]) OK, loadedNode, { gfs.init with calls := 1 }) ∧
      ∃ content, loadedNode.content = some content ∧
        (∀ (fs2 : gfs) (n2 : Nat) (off2 : Int),
          (Read (sampleEnv 2) fs2 loadedNode n2 off2).2 = (loadedNode, fs2)) ∧
        (∀ rs, (readMany (sampleEnv 2) { gfs.init with calls := 1 } loadedNode rs).2 =
          (loadedNode, { gfs.init with calls := 1 })) ∧
        (({ loadedNode with content := none } : fnode).content = none →
          ∀ rs, (readMany (sampleEnv 2) gfs.init { loadedNode with content := none }
              ((2, 0) :: rs)).2.2.calls = gfs.init.calls + 1 ∧
            (readMany (sampleEnv 2) gfs.init { loadedNode with content := none }
              ((2, 0) :: rs)).2.1.content = some content) :=
  ⟨by decide, Read_ok_loads_for_good (sampleEnv 2) gfs.init { loadedNode with content := none } 2 0
    [1, 2] loadedNode { gfs.init with calls := 1 } (by decide)⟩

/-- C7: `Open` succeeds exactly when the path splits into four segments, that is when it
contains at least three separators; the node it then returns is unloaded and bound to an
organization, repository and reference without separator and to a subpath such that the four
joined by separators are the path; otherwise `Open` returns no node and ENOENT. -/
theorem Open_four_segments (name : Str) (flags : Nat) :
    ((Open name flags).2 = OK ↔ (SplitN name PathSeparator 4).length = 4) ∧
      ((Open name flags).1.isSome ↔ (SplitN name PathSeparator 4).length = 4) ∧
      ((SplitN name PathSeparator 4).length = 4 ↔ 3 ≤ name.count PathSeparator) ∧
      ((SplitN name PathSeparator 4).length = 4 →
        ∃ org repo ref path,
          Open name flags =
            (some { flags := flags, org := org, repo := repo, ref := ref, path := path,
                    content := none }, OK) ∧
          PathSeparator ∉ org ∧ PathSeparator ∉ repo ∧ PathSeparator ∉ ref ∧
          name = org ++ PathSeparator :: (repo ++ PathSeparator :: (ref ++ PathSeparator :: path))) ∧
      ((SplitN name PathSeparator 4).length ≠ 4 → Open name flags = (none, ENOENT)) ∧
      Open "acme/myrepo/main/src/a.go".toList flags =
        (some { flags := flags, org := "acme".toList, repo := "myrepo".toList,
                ref := "main".toList, path := "src/a.go".toList, content := none }, OK) := by
  have hfour : (SplitN name PathSeparator 4).length = 4 →
      ∃ org repo ref path,
        Open name flags =
          (some { flags := flags, org := org, repo := repo, ref := ref, path := path,
                  content := none }, OK) ∧
        PathSeparator ∉ org ∧ PathSeparator ∉ repo ∧ PathSeparator ∉ ref ∧
        name = org ++ PathSeparator :: (repo ++ PathSeparator :: (ref ++ PathSeparator :: path)) := by
    intro h
    obtain ⟨a, b, d, r, hs, ha, hb, hd, hn⟩ := SplitN_four PathSeparator name h
    refine ⟨a, b, d, r, ?_, ha, hb, hd, hn⟩
    unfold Open
    simp only [hs]
    rfl
  have hnot : (SplitN name PathSeparator 4).length ≠ 4 → Open name flags = (none, ENOENT) := by
    intro h
    unfold Open
    simp only [h, ne_eq, not_false_eq_true, if_true]
  refine ⟨?_, ?_, ?_, hfour, hnot, ?_⟩
  · constructor
    · intro h
      by_contra hn
      rw [hnot hn] at h
      exact absurd h (by decide)
    · intro h
      obtain ⟨_, _, _, _, ho, _⟩ := hfour h
      rw [ho]
  · constructor
    · intro h
      by_contra hn
      rw [hnot hn] at h
      exact absurd h (by decide)
    · intro h
      obtain ⟨_, _, _, _, ho, _⟩ := hfour h
      rw [ho]
      rfl
  · rw [SplitN_length PathSeparator 3 name]
    omega
  · rfl

/-- C2 fails for a path of three segments that is not cached: `GetAttr` does not cache its
answer, and the second call stamps its synthetic attribute with a later time than the
first. -/
theorem GetAttr_twice_three_segments_differ :
    (SplitN "acme/myrepo/main".toList PathSeparator 4).length = 3 ∧
      (GetAttr (sampleEnv 2) gfs.init "acme/myrepo/main".toList).1.1 =
        some (dirAttr 0o111 1000) ∧
      (GetAttr (sampleEnv 2) (GetAttr (sampleEnv 2) gfs.init "acme/myrepo/main".toList).2
        "acme/myrepo/main".toList).1.1 = some (dirAttr 0o111 1001) ∧
      (GetAttr (sampleEnv 2) (GetAttr (sampleEnv 2) gfs.init "acme/myrepo/main".toList).2
        "acme/myrepo/main".toList).1.1 ≠
        (GetAttr (sampleEnv 2) gfs.init "acme/myrepo/main".toList).1.1 := by
  decide

/-- C2, amended: for a path of three or four segments and a cache of size at least one, two
consecutive `GetAttr` calls issue at most one remote call in total and return the same status;
they return the same attribute when the path has four segments or is in the cache; for a path of
three segments that is not in the cache they issue no remote call and each returns the synthetic
directory attribute of mask 0111 stamped with the time of its own call. -/
theorem GetAttr_twice (env : Env) (fs : gfs) (name : Str) (hsize : 1 ≤ env.cacheSize)
    (hseg : 3 ≤ (SplitN name PathSeparator 4).length) :
    (GetAttr env (GetAttr env fs name).2 name).2.calls ≤ fs.calls + 1 ∧
      (GetAttr env (GetAttr env fs name).2 name).1.2 = (GetAttr env fs name).1.2 ∧
      ((SplitN name PathSeparator 4).length = 4 ∨ Cache.lookup name fs.cache ≠ none →
        (GetAttr env (GetAttr env fs name).2 name).1 = (GetAttr env fs name).1 ∧
        (GetAttr env (GetAttr env fs name).2 name).2.calls = (GetAttr env fs name).2.calls) ∧
      ((SplitN name PathSeparator 4).length = 3 → Cache.lookup name fs.cache = none →
        (GetAttr env fs name).1 = (some (dirAttr 0o111 (env.now fs.ticks)), OK) ∧
        (GetAttr env (GetAttr env fs name).2 name).1 =
          (some (dirAttr 0o111 (env.now (fs.ticks + 1))), OK) ∧
        (GetAttr env (GetAttr env fs name).2 name).2.calls = fs.calls) := by
  cases hc : Cache.lookup name fs.cache with
  | some c =>
    have h1 := GetAttr_hit env fs name c hc
    have hc2 : Cache.lookup name (GetAttr env fs name).2.cache = some c := by
      rw [h1]; exact lookup_cons_self name c _
    have h2 := GetAttr_hit env (GetAttr env fs name).2 name c hc2
    refine ⟨?_, ?_, ?_, ?_⟩
    · rw [h2, h1]; exact Nat.le_succ _
    · rw [h2, h1]
    · intro _; rw [h2]; constructor
      · rw [h1]
      · rfl
    · intro _ h; cases h
  | none =>
    by_cases hl : (SplitN name PathSeparator 4).length ≤ 3
    · have h1 := GetAttr_miss_short env fs name hc hl
      have hc2 : Cache.lookup name (GetAttr env fs name).2.cache = none := by
        rw [h1]; exact hc
      have h2 := GetAttr_miss_short env (GetAttr env fs name).2 name hc2 hl
      have ht : (GetAttr env fs name).2.ticks = fs.ticks + 1 := by rw [h1]
      have hcl : (GetAttr env fs name).2.calls = fs.calls := by rw [h1]
      refine ⟨?_, ?_, ?_, ?_⟩
      · rw [h2]; simp only [hcl]; exact Nat.le_succ _
      · rw [h2, h1]
      · rintro (h | h)
        · omega
        · exact absurd rfl h
      · intro _ _
        refine ⟨by rw [h1], ?_, ?_⟩
        · rw [h2, ht]
        · rw [h2]; exact hcl
    · have h1 := GetAttr_miss_long env fs name hc hl
      have hc2 : ∃ c, Cache.lookup name (GetAttr env fs name).2.cache = some c ∧
          (c.attr, c.status) = (GetAttr env fs name).1 := by
        rw [h1]
        exact ⟨_, lookup_Add_self env.cacheSize hsize fs.cache name _, rfl⟩
      obtain ⟨c, hc2, hc3⟩ := hc2
      have h2 := GetAttr_hit env (GetAttr env fs name).2 name c hc2
      have hcl : (GetAttr env fs name).2.calls = fs.calls + 1 := by
        rw [h1]; exact getContent_calls env fs _ _ _ _
      refine ⟨?_, ?_, ?_, ?_⟩
      · rw [h2]; simp only [hcl]; exact le_refl _
      · rw [h2, ← hc3]
      · intro _; rw [h2]; exact ⟨hc3, rfl⟩
      · intro h; omega

/-- C2 amended, at the file `README` of the sample repository behind a cache of size one. -/
theorem GetAttr_twice_witness :
    1 ≤ (sampleEnv 1).cacheSize ∧
      3 ≤ (SplitN "acme/myrepo/main/README".toList PathSeparator 4).length ∧
      (GetAttr (sampleEnv 1) (GetAttr (sampleEnv 1) gfs.init "acme/myrepo/main/README".toList).2
        "acme/myrepo/main/README".toList).2.calls ≤ gfs.init.calls + 1 :=
  ⟨by decide, by decide,
    (GetAttr_twice (sampleEnv 1) gfs.init "acme/myrepo/main/README".toList (by decide)
      (by decide)).1⟩

/-- C8 fails: on the uncached path `acme/myrepo/main`, which has three segments, `GetAttr`
issues no remote call and stores nothing, and it answers with the synthetic attribute of mask
0111 where a metadata fetch at the repository root would have given mask 0555. -/
theorem GetAttr_three_segments_no_fetch :
    (SplitN "acme/myrepo/main".toList PathSeparator 4).length = 3 ∧
      (GetAttr (sampleEnv 2) gfs.init "acme/myrepo/main".toList).2.calls = 0 ∧
      (GetAttr (sampleEnv 2) gfs.init "acme/myrepo/main".toList).2.cache = [] ∧
      (GetAttr (sampleEnv 2) gfs.init "acme/myrepo/main".toList).1 =
        (some (dirAttr 0o111 1000), OK) ∧
      (getContent (sampleEnv 2) gfs.init "acme".toList "myrepo".toList "main".toList []).1 =
        (some (dirAttr 0o555 1000), OK) ∧
      (GetAttr (sampleEnv 2) gfs.init "acme/myrepo/main".toList).1 ≠
        (getContent (sampleEnv 2) gfs.init "acme".toList "myrepo".toList "main".toList []).1 := by
  decide

/-- C8, amended: for a path of exactly three segments that is not in the cache, `GetAttr`
returns the synthetic directory attribute of mask 0111 with status OK, issues no remote call and
leaves the cache as it is; the metadata fetch is what it does for an uncached path of four
segments: one remote call for the organization, repository, reference and subpath, whose
attribute and status are returned and, the cache holding at least one entry, stored under the
path. -/
theorem GetAttr_uncached (env : Env) (fs : gfs) (name : Str)
    (hmiss : Cache.lookup name fs.cache = none) :
    ((SplitN name PathSeparator 4).length = 3 →
        GetAttr env fs name =
          ((some (dirAttr 0o111 (env.now fs.ticks)), OK), { fs with ticks := fs.ticks + 1 })) ∧
      ((SplitN name PathSeparator 4).length = 4 →
        ∃ org repo ref path,
          SplitN name PathSeparator 4 = [org, repo, ref, path] ∧
          (GetAttr env fs name).1 = (getContent env fs org repo ref path).1 ∧
          (GetAttr env fs name).2.calls = fs.calls + 1 ∧
          (GetAttr env fs name).2.cache =
            Cache.Add env.cacheSize fs.cache name
              (stat.mk (getContent env fs org repo ref path).1.1
                (getContent env fs org repo ref path).1.2 none) ∧
          (1 ≤ env.cacheSize →
            Cache.lookup name (GetAttr env fs name).2.cache =
              some (stat.mk (GetAttr env fs name).1.1 (GetAttr env fs name).1.2 none))) := by
  constructor
  · intro h
    exact GetAttr_miss_short env fs name hmiss (by omega)
  · intro h
    obtain ⟨a, b, d, r, hs, _⟩ := SplitN_four PathSeparator name h
    have h1 := GetAttr_miss_long env fs name hmiss (by omega)
    rw [hs] at h1
    simp only [List.getD_cons_zero, List.getD_cons_succ] at h1
    refine ⟨a, b, d, r, hs, ?_, ?_, ?_, ?_⟩
    · rw [h1]
    · rw [h1]; exact getContent_calls env fs _ _ _ _
    · rw [h1]
    · intro hsize
      rw [h1]
      exact lookup_Add_self env.cacheSize hsize fs.cache name _

/-- C8 amended, at the uncached path `acme/myrepo/main` of the sample repository. -/
theorem GetAttr_uncached_witness :
    Cache.lookup "acme/myrepo/main".toList gfs.init.cache = none ∧
      ((SplitN "acme/myrepo/main".toList PathSeparator 4).length = 3 →
        GetAttr (sampleEnv 2) gfs.init "acme/myrepo/main".toList =
          ((some (dirAttr 0o111 ((sampleEnv 2).now gfs.init.ticks)), OK),
            { gfs.init with ticks := gfs.init.ticks + 1 })) :=
  ⟨rfl, (GetAttr_uncached (sampleEnv 2) gfs.init "acme/myrepo/main".toList rfl).1⟩

theorem OpenDir_cached (env : Env) (fs : gfs) (name : Str) (c : stat) (es : List DirEntry)
    (h : Cache.lookup name fs.cache = some c) (he : c.entries = some es) :
    OpenDir env fs name = ((some es, c.status), afterLookup fs name) := by
  unfold OpenDir afterLookup
  rw [Get_of_hit _ _ _ h]
  simp [he]

theorem OpenDir_uncached (env : Env) (fs : gfs) (name : Str)
    (h : hasCachedListing fs name = false) :
    OpenDir env fs name =
      if (SplitN name PathSeparator 4).length < 3 then ((none, EACCES), afterLookup fs name)
      else if (openDirQuery env fs name).err.isSome then ((none, ENOENT), afterQuery fs name)
      else
        match (openDirQuery env fs name).ds with
        | none => ((none, ENOTDIR), afterQuery fs name)
        | some ds => openDirStore env (afterQuery fs name) name ds := by
  have hb : (Cache.Get fs.cache name).1.bind
      (fun c => c.entries.map (fun es => (es, c.status))) = none := by
    rw [Get_fst]
    unfold hasCachedListing at h
    cases hc : Cache.lookup name fs.cache with
    | none => rfl
    | some c =>
      rw [hc] at h
      simp only at h
      cases he : c.entries with
      | none => simp [he]
      | some es => rw [he] at h; cases h
  unfold OpenDir
  simp only [hb]
  unfold afterLookup afterQuery openDirQuery callGetContents
  rfl

theorem openDirStep_fst (env : Env) (name : Str) (acc : Option (List DirEntry) × gfs)
    (ent : RepositoryContent) :
    (openDirStep env name acc ent).1 = some (acc.1.getD [] ++ [dirEntryOf ent]) := by
  unfold openDirStep appendEntry dirEntryOf
  cases acc.1 <;> rfl

theorem openDirStep_calls (env : Env) (name : Str) (acc : Option (List DirEntry) × gfs)
    (ent : RepositoryContent) :
    (openDirStep env name acc ent).2.calls = acc.2.calls := by
  unfold openDirStep
  simp only
  split_ifs <;> rfl

theorem openDirStep_cache (env : Env) (name : Str) (acc : Option (List DirEntry) × gfs)
    (ent : RepositoryContent) :
    ∃ v, (openDirStep env name acc ent).2.cache =
      Cache.Add env.cacheSize acc.2.cache (Join name ent.name) v := by
  unfold openDirStep
  simp only
  split_ifs
  · exact ⟨_, rfl⟩
  · exact ⟨_, rfl⟩

theorem openDirLoop_fst (env : Env) (name : Str) (ds : List RepositoryContent)
    (acc : Option (List DirEntry) × gfs) :
    (ds.foldl (openDirStep env name) acc).1 =
      if ds = [] then acc.1 else some (acc.1.getD [] ++ ds.map dirEntryOf) := by
  induction ds generalizing acc with
  | nil => rfl
  | cons ent rest ih =>
    rw [List.foldl_cons, ih, openDirStep_fst]
    by_cases hr : rest = []
    · subst hr; simp
    · simp [hr]

theorem openDirLoop_calls (env : Env) (name : Str) (ds : List RepositoryContent)
    (acc : Option (List DirEntry) × gfs) :
    (ds.foldl (openDirStep env name) acc).2.calls = acc.2.calls := by
  induction ds generalizing acc with
  | nil => rfl
  | cons ent rest ih => rw [List.foldl_cons, ih, openDirStep_calls]

theorem openDirStore_fst (env : Env) (fs : gfs) (name : Str) (ds : List RepositoryContent) :
    (openDirStore env fs name ds).1 =
      (if ds = [] then none else some (ds.map dirEntryOf), OK) := by
  unfold openDirStore
  simp only [openDirLoop_fst]
  by_cases hd : ds = []
  · simp [hd]
  · simp [hd]

theorem openDirStore_calls (env : Env) (fs : gfs) (name : Str) (ds : List RepositoryContent) :
    (openDirStore env fs name ds).2.calls = fs.calls := by
  unfold openDirStore newDirInfo timeNow
  simp only
  exact openDirLoop_calls env name ds (none, fs)

theorem openDirStore_cache (env : Env) (fs : gfs) (name : Str) (ds : List RepositoryContent) :
    ∃ v, (openDirStore env fs name ds).2.cache =
      Cache.Add env.cacheSize (ds.foldl (openDirStep env name) (none, fs)).2.cache name v := by
  unfold openDirStore newDirInfo timeNow
  exact ⟨_, rfl⟩

theorem hasCachedListing_false_iff (fs : gfs) (name : Str) :
    hasCachedListing fs name = false ↔
      ∀ c, Cache.lookup name fs.cache = some c → c.entries = none := by
  unfold hasCachedListing
  cases h : Cache.lookup name fs.cache with
  | none => simp
  | some c =>
    cases he : c.entries with
    | none => simp [he]
    | some es => simp [he]

theorem kindBits_dirEntryOf (ent : RepositoryContent) : (dirEntryOf ent).kindBits = 0 := by
  show (0o444 &&& S_IFMT : Nat) = 0
  decide

/-- C6: when the cache holds no listing for the path, `OpenDir` fails with AccessDenied and no
remote call if the path has fewer than three segments; otherwise it issues exactly one remote
query and fails with NotFound if the query reports an error, and with NotADirectory if the
query yields no list; each of these failures returns no entries and leaves every key of the
cache with the entry it had. -/
theorem OpenDir_failures (env : Env) (fs : gfs) (name : Str)
    (hno : hasCachedListing fs name = false) :
    ((SplitN name PathSeparator 4).length < 3 →
        OpenDir env fs name = ((none, EACCES), afterLookup fs name)) ∧
      (3 ≤ (SplitN name PathSeparator 4).length → (openDirQuery env fs name).err ≠ none →
        OpenDir env fs name = ((none, ENOENT), afterQuery fs name)) ∧
      (3 ≤ (SplitN name PathSeparator 4).length → (openDirQuery env fs name).err = none →
        (openDirQuery env fs name).ds = none →
        OpenDir env fs name = ((none, ENOTDIR), afterQuery fs name)) ∧
      (afterLookup fs name).calls = fs.calls ∧
      (afterQuery fs name).calls = fs.calls + 1 ∧
      (∀ k, Cache.lookup k (afterLookup fs name).cache = Cache.lookup k fs.cache) ∧
      (∀ k, Cache.lookup k (afterQuery fs name).cache = Cache.lookup k fs.cache) := by
  have h := OpenDir_uncached env fs name hno
  refine ⟨?_, ?_, ?_, rfl, rfl, ?_, ?_⟩
  · intro hl
    rw [h, if_pos hl]
  · intro hl he
    have he' : (openDirQuery env fs name).err.isSome = true := by
      cases hq : (openDirQuery env fs name).err with
      | none => exact absurd hq he
      | some _ => rfl
    rw [h, if_neg (by omega), if_pos he']
  · intro hl he hd
    have he' : ¬ (openDirQuery env fs name).err.isSome = true := by
      rw [he]; simp
    rw [h, if_neg (by omega), if_neg he', hd]
  · intro k; exact lookup_Get fs.cache name k
  · intro k; exact lookup_Get fs.cache name k

/-- C6, at the path `acme/myrepo` of two segments. -/
theorem OpenDir_failures_witness :
    hasCachedListing gfs.init "acme/myrepo".toList = false ∧
      ((SplitN "acme/myrepo".toList PathSeparator 4).length < 3 →
        OpenDir (sampleEnv 2) gfs.init "acme/myrepo".toList =
          ((none, EACCES), afterLookup gfs.init "acme/myrepo".toList)) :=
  ⟨rfl, (OpenDir_failures (sampleEnv 2) gfs.init "acme/myrepo".toList rfl).1⟩

/-- C9 fails: listing the root of the sample repository, whose children are a directory `src`
and a file `README`, gives two entries with the same mode 0444, which has no file type bits:
the entry of `src` is not marked as a directory and the entry of `README` is not marked as a
file. -/
theorem OpenDir_entries_carry_no_kind :
    (OpenDir (sampleEnv 4) gfs.init "acme/myrepo/main".toList).1 =
        (some [{ name := "src".toList, mode := 0o444 }, { name := "README".toList, mode := 0o444 }],
          OK) ∧
      DirEntry.kindBits { name := "src".toList, mode := 0o444 } ≠ S_IFDIR ∧
      DirEntry.kindBits { name := "README".toList, mode := 0o444 } ≠ S_IFREG ∧
      DirEntry.kindBits { name := "src".toList, mode := 0o444 } =
        DirEntry.kindBits { name := "README".toList, mode := 0o444 } := by
  decide

/-! ## Recently used keys survive the next insertions -/

theorem recent_mono (m : Nat) (c : Cache) (k : Str) (h : k ∈ Cache.recent m c) :
    k ∈ Cache.recent (m + 1) c := by
  unfold Cache.recent at h ⊢
  rw [List.mem_map] at h ⊢
  obtain ⟨e, he, hk⟩ := h
  exact ⟨e, List.take_subset_take_left c (Nat.le_succ m) he, hk⟩

theorem recent_subset_keys (m : Nat) (c : Cache) (k : Str) (h : k ∈ Cache.recent m c) :
    k ∈ c.map Prod.fst := by
  unfold Cache.recent at h
  rw [List.mem_map] at h ⊢
  obtain ⟨e, he, hk⟩ := h
  exact ⟨e, List.mem_of_mem_take he, hk⟩

theorem recent_remove (k0 k : Str) (hne : k ≠ k0) (c : Cache) (m : Nat)
    (h : k ∈ Cache.recent m c) : k ∈ Cache.recent m (Cache.remove k0 c) := by
  induction c generalizing m with
  | nil => simp [Cache.recent] at h
  | cons e c ih =>
    obtain ⟨k1, v⟩ := e
    cases m with
    | zero => simp [Cache.recent] at h
    | succ m =>
      have h' : k = k1 ∨ k ∈ Cache.recent m c := by
        unfold Cache.recent at h ⊢
        rw [List.take_succ_cons, List.map_cons, List.mem_cons] at h
        exact h
      unfold Cache.remove
      by_cases h1 : k1 = k0
      · rw [if_pos h1]
        rcases h' with h' | h'
        · exact absurd (h'.trans h1) hne
        · exact recent_mono m _ k (ih m h')
      · rw [if_neg h1]
        unfold Cache.recent
        rw [List.take_succ_cons, List.map_cons, List.mem_cons]
        rcases h' with h' | h'
        · exact Or.inl h'
        · exact Or.inr (ih m h')

theorem take_dropLast_of_lt {α : Type} (l : List α) (m : Nat) (h : m < l.length) :
    l.dropLast.take m = l.take m := by
  rw [List.dropLast_eq_take, List.take_take, Nat.min_eq_left (by omega)]

theorem recent_Add_self (size : Nat) (hs : 1 ≤ size) (c : Cache) (k : Str) (v : stat) (m : Nat) :
    k ∈ Cache.recent (m + 1) (Cache.Add size c k v) := by
  unfold Cache.Add
  cases h : Cache.lookup k c with
  | some _ => simp [Cache.recent]
  | none =>
    simp only
    split_ifs with hl
    · cases c with
      | nil => simp at hl; omega
      | cons e c2 => rw [List.dropLast_cons₂]; simp [Cache.recent]
    · simp [Cache.recent]

theorem recent_Add_old (size : Nat) (c : Cache) (k0 k : Str) (v : stat) (m : Nat)
    (hm : m + 1 ≤ size) (h : k ∈ Cache.recent m c) :
    k ∈ Cache.recent (m + 1) (Cache.Add size c k0 v) := by
  by_cases hk : k = k0
  · subst hk; exact recent_Add_self size (by omega) c k v m
  · have hcons : ∀ c' : Cache, k ∈ Cache.recent m c' → k ∈ Cache.recent (m + 1) ((k0, v) :: c') := by
      intro c' hc'
      unfold Cache.recent at hc' ⊢
      rw [List.take_succ_cons, List.map_cons, List.mem_cons]
      exact Or.inr hc'
    unfold Cache.Add
    cases hl : Cache.lookup k0 c with
    | some _ => exact hcons _ (recent_remove k0 k hk c m h)
    | none =>
      simp only
      split_ifs with hlen
      · have e : Cache.recent (m + 1) ((k0, v) :: c).dropLast =
            Cache.recent (m + 1) ((k0, v) :: c) := by
          unfold Cache.recent
          rw [take_dropLast_of_lt _ _ (by omega)]
        rw [e]; exact hcons c h
      · exact hcons c h

theorem openDirLoop_recent (env : Env) (name : Str) (ds : List RepositoryContent)
    (acc : Option (List DirEntry) × gfs) (m : Nat) (S : List Str)
    (hS : ∀ k ∈ S, k ∈ Cache.recent m acc.2.cache)
    (hm : m + ds.length ≤ env.cacheSize) :
    (∀ k ∈ S, k ∈ Cache.recent (m + ds.length) (ds.foldl (openDirStep env name) acc).2.cache) ∧
      (∀ e ∈ ds, Join name e.name ∈
        Cache.recent (m + ds.length) (ds.foldl (openDirStep env name) acc).2.cache) := by
  induction ds generalizing acc m S with
  | nil =>
    refine ⟨fun k hk => hS k hk, ?_⟩
    intro e he; cases he
  | cons ent rest ih =>
    rw [List.length_cons] at hm
    obtain ⟨v, hv⟩ := openDirStep_cache env name acc ent
    have hS' : ∀ k ∈ Join name ent.name :: S,
        k ∈ Cache.recent (m + 1) (openDirStep env name acc ent).2.cache := by
      intro k hk
      rw [hv]
      rcases List.mem_cons.mp hk with hk | hk
      · rw [hk]; exact recent_Add_self env.cacheSize (by omega) _ _ _ m
      · exact recent_Add_old env.cacheSize _ _ k _ m (by omega) (hS k hk)
    obtain ⟨h1, h2⟩ := ih (openDirStep env name acc ent) (m + 1) (Join name ent.name :: S) hS'
      (by omega)
    have e : m + (rest.length + 1) = m + 1 + rest.length := by omega
    rw [List.foldl_cons, List.length_cons, e]
    refine ⟨fun k hk => h1 k (List.mem_cons_of_mem _ hk), ?_⟩
    intro e he
    rcases List.mem_cons.mp he with he | he
    · rw [he]; exact h1 _ (List.mem_cons_self _ _)
    · exact h2 e he

theorem openDirStore_children_cached (env : Env) (fs : gfs) (name : Str)
    (ds : List RepositoryContent) (hcap : ds.length < env.cacheSize) :
    ∀ e ∈ ds, Cache.lookup (Join name e.name) (openDirStore env fs name ds).2.cache ≠ none := by
  intro e he
  obtain ⟨v, hv⟩ := openDirStore_cache env fs name ds
  obtain ⟨_, h2⟩ := openDirLoop_recent env name ds (none, fs) 0 [] (by intro k hk; cases hk)
    (by omega)
  rw [lookup_ne_none_iff, hv]
  apply recent_subset_keys (0 + ds.length + 1)
  exact recent_Add_old env.cacheSize _ name _ v (0 + ds.length) (by omega) (h2 e he)

/-- C3 fails when the listing does not fit in the cache with the directory's own entry: behind
a cache of size two, listing the root of the sample repository (children `src` and `README`)
succeeds, but the entry of `src` has been evicted by the time `OpenDir` returns, and `GetAttr`
on it issues a remote call. -/
theorem OpenDir_child_evicted :
    (OpenDir (sampleEnv 2) gfs.init "acme/myrepo/main".toList).1 =
        (some [dirEntryOf { type := "dir".toList, name := "src".toList, size := 0, content := GetContentOutcome.content [] },
               dirEntryOf { type := "file".toList, name := "README".toList, size := 5,
                            content := GetContentOutcome.content [] }], OK) ∧
      Join "acme/myrepo/main".toList "src".toList = "acme/myrepo/main/src".toList ∧
      Cache.lookup "acme/myrepo/main/src".toList
        (OpenDir (sampleEnv 2) gfs.init "acme/myrepo/main".toList).2.cache = none ∧
      (OpenDir (sampleEnv 2) gfs.init "acme/myrepo/main".toList).2.calls = 1 ∧
      (GetAttr (sampleEnv 2) (OpenDir (sampleEnv 2) gfs.init "acme/myrepo/main".toList).2
        "acme/myrepo/main/src".toList).2.calls = 2 := by
  decide

/-- C3, amended: when `OpenDir(p)` has no cached listing for a path `p` of at least three
segments, the remote answers with a list of children, and that list is shorter than the cache
size, then on return every child `c` of the returned entries has a cache entry under
`Join(p, c.name)`, and `GetAttr` on that path, called next, is a cache hit that issues no remote
call. -/
theorem OpenDir_children_cached (env : Env) (fs : gfs) (name : Str)
    (ds : List RepositoryContent)
    (hno : hasCachedListing fs name = false)
    (hseg : 3 ≤ (SplitN name PathSeparator 4).length)
    (herr : (openDirQuery env fs name).err = none)
    (hds : (openDirQuery env fs name).ds = some ds)
    (hcap : ds.length < env.cacheSize) :
    (OpenDir env fs name).1.2 = OK ∧
      ∀ c ∈ (OpenDir env fs name).1.1.getD [],
        (∃ st, Cache.lookup (Join name c.name) (OpenDir env fs name).2.cache = some st ∧
          (GetAttr env (OpenDir env fs name).2 (Join name c.name)).1 = (st.attr, st.status)) ∧
        (GetAttr env (OpenDir env fs name).2 (Join name c.name)).2.calls =
          (OpenDir env fs name).2.calls := by
  have he' : ¬ (openDirQuery env fs name).err.isSome = true := by
    rw [herr]; simp
  have h : OpenDir env fs name = openDirStore env (afterQuery fs name) name ds := by
    rw [OpenDir_uncached env fs name hno, if_neg (by omega), if_neg he', hds]
  have hent : (OpenDir env fs name).1.1.getD [] = ds.map dirEntryOf := by
    rw [h, openDirStore_fst]
    by_cases hd : ds = []
    · simp [hd]
    · simp [hd]
  refine ⟨by rw [h, openDirStore_fst], ?_⟩
  intro c hc
  rw [hent, List.mem_map] at hc
  obtain ⟨ent, hent', rfl⟩ := hc
  have hin : Cache.lookup (Join name ent.name) (OpenDir env fs name).2.cache ≠ none := by
    rw [h]; exact openDirStore_children_cached env _ name ds hcap ent hent'
  cases hl : Cache.lookup (Join name (dirEntryOf ent).name) (OpenDir env fs name).2.cache with
  | none => exact absurd hl hin
  | some st =>
    have hg := GetAttr_hit env (OpenDir env fs name).2 (Join name (dirEntryOf ent).name) st hl
    refine ⟨⟨st, rfl, ?_⟩, ?_⟩
    · rw [hg]
    · rw [hg]

/-- C3 amended, at the root of the sample repository behind a cache of size three. -/
theorem OpenDir_children_cached_witness :
    hasCachedListing gfs.init "acme/myrepo/main".toList = false ∧
      3 ≤ (SplitN "acme/myrepo/main".toList PathSeparator 4).length ∧
      (openDirQuery (sampleEnv 3) gfs.init "acme/myrepo/main".toList).err = none ∧
      (2 : Nat) < (sampleEnv 3).cacheSize ∧
      (OpenDir (sampleEnv 3) gfs.init "acme/myrepo/main".toList).1.2 = OK :=
  ⟨rfl, by decide, rfl, by decide,
    (OpenDir_children_cached (sampleEnv 3) gfs.init "acme/myrepo/main".toList
      [{ type := "dir".toList, name := "src".toList, size := 0, content := GetContentOutcome.content [] },
       { type := "file".toList, name := "README".toList, size := 5, content := GetContentOutcome.content [] }]
      rfl (by decide) rfl rfl (by decide)).1⟩

/-! ## Entries that no call writes over -/

theorem Read_cache (env : Env) (fs : gfs) (f : fnode) (buflen : Nat) (off : Int) :
    (Read env fs f buflen off).2.2.cache = fs.cache := by
  unfold Read
  cases hc : f.content with
  | some content => rfl
  | none =>
    simp only [callGetContents]
    cases he : (env.GetContents fs.calls f.org f.repo f.path f.ref).err with
    | some st => rfl
    | none =>
      cases hfc : (env.GetContents fs.calls f.org f.repo f.path f.ref).fc with
      | none => rfl
      | some fc =>
        cases hcont : fc.content with
        | panic => simp only [hcont]
        | error => simp only [hcont]
        | content content => simp only [hcont]

theorem kept_Add (size : Nat) (c : Cache) (k p : Str) (v e : stat) (hne : p ≠ k)
    (h : Cache.lookup p c = some e ∨ Cache.lookup p c = none) :
    Cache.lookup p (Cache.Add size c k v) = some e ∨
      Cache.lookup p (Cache.Add size c k v) = none := by
  rcases lookup_Add_ne size c k p v hne with h1 | h1
  · rw [h1]; exact h
  · exact Or.inr h1

theorem kept_openDirLoop (env : Env) (name p : Str) (e : stat) (ds : List RepositoryContent)
    (acc : Option (List DirEntry) × gfs)
    (hp : p ∉ ds.map (fun d => Join name d.name))
    (h : Cache.lookup p acc.2.cache = some e ∨ Cache.lookup p acc.2.cache = none) :
    Cache.lookup p (ds.foldl (openDirStep env name) acc).2.cache = some e ∨
      Cache.lookup p (ds.foldl (openDirStep env name) acc).2.cache = none := by
  induction ds generalizing acc with
  | nil => exact h
  | cons ent rest ih =>
    rw [List.map_cons, List.mem_cons, not_or] at hp
    rw [List.foldl_cons]
    apply ih _ hp.2
    obtain ⟨v, hv⟩ := openDirStep_cache env name acc ent
    rw [hv]
    exact kept_Add env.cacheSize _ _ p v e hp.1 h

theorem kept_openDirStore (env : Env) (fs : gfs) (name p : Str) (e : stat)
    (ds : List RepositoryContent)
    (hp : p ∉ name :: ds.map (fun d => Join name d.name))
    (h : Cache.lookup p fs.cache = some e ∨ Cache.lookup p fs.cache = none) :
    Cache.lookup p (openDirStore env fs name ds).2.cache = some e ∨
      Cache.lookup p (openDirStore env fs name ds).2.cache = none := by
  rw [List.mem_cons, not_or] at hp
  obtain ⟨v, hv⟩ := openDirStore_cache env fs name ds
  rw [hv]
  exact kept_Add env.cacheSize _ _ p v e hp.1 (kept_openDirLoop env name p e ds (none, fs) hp.2 h)

theorem kept_GetAttr (env : Env) (fs : gfs) (name p : Str) (e : stat)
    (h : Cache.lookup p fs.cache = some e) :
    Cache.lookup p (GetAttr env fs name).2.cache = some e ∨
      Cache.lookup p (GetAttr env fs name).2.cache = none := by
  cases hc : Cache.lookup name fs.cache with
  | some c =>
    left
    have := lookup_Get fs.cache name p
    rw [Get_of_hit _ _ _ hc] at this
    rw [GetAttr_hit env fs name c hc]
    exact this.trans h
  | none =>
    by_cases hl : (SplitN name PathSeparator 4).length ≤ 3
    · left; rw [GetAttr_miss_short env fs name hc hl]; exact h
    · rw [GetAttr_miss_long env fs name hc hl]
      have hne : p ≠ name := by
        intro hpn; rw [hpn, hc] at h; cases h
      exact kept_Add env.cacheSize _ _ p _ e hne (Or.inl h)

theorem kept_OpenDir (env : Env) (fs : gfs) (name p : Str) (e : stat)
    (h : Cache.lookup p fs.cache = some e)
    (hp : p ∉ rewrittenKeys env fs (Op.openDir name)) :
    Cache.lookup p (OpenDir env fs name).2.cache = some e ∨
      Cache.lookup p (OpenDir env fs name).2.cache = none := by
  have hget : Cache.lookup p (Cache.Get fs.cache name).2 = some e :=
    (lookup_Get fs.cache name p).trans h
  cases hcl : hasCachedListing fs name with
  | true =>
    left
    cases hc : Cache.lookup name fs.cache with
    | none => simp [hasCachedListing, hc] at hcl
    | some c =>
      cases hes : c.entries with
      | none => simp [hasCachedListing, hc, hes] at hcl
      | some es =>
        rw [OpenDir_cached env fs name c es hc hes]
        exact hget
  | false =>
    rw [OpenDir_uncached env fs name hcl]
    unfold rewrittenKeys openDirListing at hp
    simp only [hcl, Bool.false_eq_true, if_false] at hp
    split_ifs with h1 h2
    · left; exact hget
    · left; exact hget
    · rw [if_neg h1, if_neg h2] at hp
      cases hds : (openDirQuery env fs name).ds with
      | none => left; exact hget
      | some ds =>
        rw [hds] at hp
        exact kept_openDirStore env (afterQuery fs name) name p e ds hp (Or.inl hget)

theorem kept_step (env : Env) (w : World) (op : Op) (p : Str) (e : stat)
    (h : Cache.lookup p w.fs.cache = some e) (hp : p ∉ rewrittenKeys env w.fs op) :
    Cache.lookup p (step env w op).fs.cache = some e ∨
      Cache.lookup p (step env w op).fs.cache = none := by
  cases op with
  | getAttr name => exact kept_GetAttr env w.fs name p e h
  | openDir name => exact kept_OpenDir env w.fs name p e h hp
  | openFile name flags =>
    left
    simp only [step]
    cases (Open name flags).1 <;> exact h
  | read hd buflen off =>
    left
    simp only [step]
    cases hn : w.nodes.get? hd with
    | none => exact h
    | some f =>
      simp only
      rw [Read_cache]
      exact h

/-! ## Invariants of the cache under the calls -/

theorem openDirLoop_invariant (P : Cache → Prop) (K : Str → Prop) (env : Env) (name : Str)
    (hAdd : ∀ c k v, K k → P c → P (Cache.Add env.cacheSize c k v))
    (ds : List RepositoryContent) (acc : Option (List DirEntry) × gfs)
    (hK : ∀ d ∈ ds, K (Join name d.name)) (h : P acc.2.cache) :
    P (ds.foldl (openDirStep env name) acc).2.cache := by
  induction ds generalizing acc with
  | nil => exact h
  | cons ent rest ih =>
    rw [List.foldl_cons]
    apply ih _ (fun d hd => hK d (List.mem_cons_of_mem _ hd))
    obtain ⟨v, hv⟩ := openDirStep_cache env name acc ent
    rw [hv]
    exact hAdd _ _ v (hK ent (List.mem_cons_self _ _)) h

theorem openDirStore_invariant (P : Cache → Prop) (K : Str → Prop) (env : Env) (fs : gfs)
    (name : Str)
    (hAdd : ∀ c k v, K k → P c → P (Cache.Add env.cacheSize c k v))
    (ds : List RepositoryContent)
    (hK : ∀ k ∈ name :: ds.map (fun d => Join name d.name), K k) (h : P fs.cache) :
    P (openDirStore env fs name ds).2.cache := by
  obtain ⟨v, hv⟩ := openDirStore_cache env fs name ds
  rw [hv]
  apply hAdd _ _ v (hK name (List.mem_cons_self _ _))
  apply openDirLoop_invariant P K env name hAdd ds (none, fs) _ h
  intro d hd
  exact hK _ (List.mem_cons_of_mem _ (List.mem_map_of_mem _ hd))

theorem GetAttr_invariant (P : Cache → Prop) (K : Str → Prop) (env : Env) (fs : gfs)
    (name : Str)
    (hGet : ∀ c k, P c → P (Cache.Get c k).2)
    (hAdd : ∀ c k v, K k → P c → P (Cache.Add env.cacheSize c k v))
    (hK : ∀ k ∈ addedKeys env fs (Op.getAttr name), K k) (h : P fs.cache) :
    P (GetAttr env fs name).2.cache := by
  cases hc : Cache.lookup name fs.cache with
  | some c =>
    have := hGet fs.cache name h
    rw [Get_of_hit _ _ _ hc] at this
    rw [GetAttr_hit env fs name c hc]
    exact this
  | none =>
    by_cases hl : (SplitN name PathSeparator 4).length ≤ 3
    · rw [GetAttr_miss_short env fs name hc hl]; exact h
    · rw [GetAttr_miss_long env fs name hc hl]
      apply hAdd _ _ _ _ h
      apply hK
      simp only [addedKeys]
      rw [if_pos ⟨hc, hl⟩]
      exact List.mem_cons_self _ _

theorem OpenDir_invariant (P : Cache → Prop) (K : Str → Prop) (env : Env) (fs : gfs)
    (name : Str)
    (hGet : ∀ c k, P c → P (Cache.Get c k).2)
    (hAdd : ∀ c k v, K k → P c → P (Cache.Add env.cacheSize c k v))
    (hK : ∀ k ∈ addedKeys env fs (Op.openDir name), K k) (h : P fs.cache) :
    P (OpenDir env fs name).2.cache := by
  have hget : P (Cache.Get fs.cache name).2 := hGet fs.cache name h
  cases hcl : hasCachedListing fs name with
  | true =>
    cases hc : Cache.lookup name fs.cache with
    | none => simp [hasCachedListing, hc] at hcl
    | some c =>
      cases hes : c.entries with
      | none => simp [hasCachedListing, hc, hes] at hcl
      | some es =>
        rw [OpenDir_cached env fs name c es hc hes]
        exact hget
  | false =>
    rw [OpenDir_uncached env fs name hcl]
    simp only [addedKeys, rewrittenKeys, openDirListing] at hK
    simp only [hcl, Bool.false_eq_true, if_false] at hK
    split_ifs with h1 h2
    · exact hget
    · exact hget
    · rw [if_neg h1, if_neg h2] at hK
      cases hds : (openDirQuery env fs name).ds with
      | none => exact hget
      | some ds =>
        rw [hds] at hK
        exact openDirStore_invariant P K env (afterQuery fs name) name hAdd ds hK hget

theorem step_invariant (P : Cache → Prop) (K : Str → Prop) (env : Env) (w : World) (op : Op)
    (hGet : ∀ c k, P c → P (Cache.Get c k).2)
    (hAdd : ∀ c k v, K k → P c → P (Cache.Add env.cacheSize c k v))
    (hK : ∀ k ∈ addedKeys env w.fs op, K k) (h : P w.fs.cache) :
    P (step env w op).fs.cache := by
  cases op with
  | getAttr name => exact GetAttr_invariant P K env w.fs name hGet hAdd hK h
  | openDir name => exact OpenDir_invariant P K env w.fs name hGet hAdd hK h
  | openFile name flags =>
    simp only [step]
    cases (Open name flags).1 <;> exact h
  | read hd buflen off =>
    simp only [step]
    cases hn : w.nodes.get? hd with
    | none => exact h
    | some f =>
      simp only
      rw [Read_cache]
      exact h

theorem run_nil (env : Env) (w : World) : run env w [] = w := rfl

theorem run_cons (env : Env) (w : World) (op : Op) (ops : List Op) :
    run env w (op :: ops) = run env (step env w op) ops := rfl

theorem run_append (env : Env) (w : World) (ops1 ops2 : List Op) :
    run env w (ops1 ++ ops2) = run env (run env w ops1) ops2 := by
  unfold run
  rw [List.foldl_append]

theorem run_invariant (P : Cache → Prop) (env : Env) (ops : List Op) (w : World)
    (hGet : ∀ c k, P c → P (Cache.Get c k).2)
    (hAdd : ∀ c k v, P c → P (Cache.Add env.cacheSize c k v))
    (h : P w.fs.cache) : P (run env w ops).fs.cache := by
  induction ops generalizing w with
  | nil => exact h
  | cons op rest ih =>
    rw [run_cons]
    apply ih
    exact step_invariant P (fun _ => True) env w op hGet (fun c k v _ hc => hAdd c k v hc)
      (fun _ _ => trivial) h

/-! ## Keys are unique, and an entry leaves a cache only when the cache is full -/

theorem keys_cons (k : Str) (v : stat) (c : Cache) :
    Cache.keys ((k, v) :: c) = k :: Cache.keys c := rfl

theorem mem_keys_iff (k : Str) (c : Cache) : k ∈ Cache.keys c ↔ Cache.lookup k c ≠ none :=
  (lookup_ne_none_iff k c).symm

theorem remove_of_not_mem (k : Str) (c : Cache) (h : Cache.lookup k c = none) :
    Cache.remove k c = c := by
  induction c with
  | nil => rfl
  | cons e c ih =>
    obtain ⟨k1, v⟩ := e
    unfold Cache.lookup at h
    by_cases h1 : k1 = k
    · rw [if_pos h1] at h; cases h
    · rw [if_neg h1] at h
      unfold Cache.remove
      rw [if_neg h1, ih h]

theorem mem_keys_remove (k k' : Str) (c : Cache) (h : k' ∈ Cache.keys (Cache.remove k c)) :
    k' ∈ Cache.keys c := by
  rw [mem_keys_iff] at h ⊢
  by_cases hk : k' = k
  · rw [hk, lookup_remove_self] at h; exact absurd rfl h
  · rwa [lookup_remove_ne k k' c hk] at h

theorem nodup_remove (k : Str) (c : Cache) (h : (Cache.keys c).Nodup) :
    (Cache.keys (Cache.remove k c)).Nodup := by
  induction c with
  | nil => exact h
  | cons e c ih =>
    obtain ⟨k1, v⟩ := e
    rw [keys_cons, List.nodup_cons] at h
    unfold Cache.remove
    by_cases h1 : k1 = k
    · rw [if_pos h1]; exact ih h.2
    · rw [if_neg h1, keys_cons, List.nodup_cons]
      exact ⟨fun hm => h.1 (mem_keys_remove k k1 c hm), ih h.2⟩

theorem length_remove (k : Str) (c : Cache) (h : (Cache.keys c).Nodup)
    (hk : Cache.lookup k c ≠ none) : (Cache.remove k c).length + 1 = c.length := by
  induction c with
  | nil => exact absurd rfl hk
  | cons e c ih =>
    obtain ⟨k1, v⟩ := e
    rw [keys_cons, List.nodup_cons] at h
    unfold Cache.remove
    by_cases h1 : k1 = k
    · rw [if_pos h1]
      have hnot : Cache.lookup k c = none := by
        by_contra hc
        exact h.1 (h1 ▸ (mem_keys_iff k c).mpr hc)
      rw [remove_of_not_mem k c hnot]; rfl
    · rw [if_neg h1, List.length_cons, List.length_cons]
      rw [lookup_cons_ne k1 k v c h1] at hk
      rw [ih h.2 hk]

theorem nodup_moved (k : Str) (v : stat) (c : Cache) (h : (Cache.keys c).Nodup) :
    (Cache.keys ((k, v) :: Cache.remove k c)).Nodup := by
  rw [keys_cons, List.nodup_cons]
  refine ⟨?_, nodup_remove k c h⟩
  rw [mem_keys_iff, lookup_remove_self]
  exact fun hn => hn rfl

theorem nodup_Get (c : Cache) (k : Str) (h : (Cache.keys c).Nodup) :
    (Cache.keys (Cache.Get c k).2).Nodup := by
  cases hc : Cache.lookup k c with
  | none => rw [Get_of_miss c k hc]; exact h
  | some v => rw [Get_of_hit c k v hc]; exact nodup_moved k v c h

theorem length_Get (c : Cache) (k : Str) (h : (Cache.keys c).Nodup) :
    (Cache.Get c k).2.length = c.length := by
  cases hc : Cache.lookup k c with
  | none => rw [Get_of_miss c k hc]
  | some v =>
    rw [Get_of_hit c k v hc, List.length_cons]
    exact length_remove k c h (by rw [hc]; exact fun hn => Option.noConfusion hn)

theorem nodup_Add (size : Nat) (c : Cache) (k : Str) (v : stat) (h : (Cache.keys c).Nodup) :
    (Cache.keys (Cache.Add size c k v)).Nodup := by
  unfold Cache.Add
  cases hc : Cache.lookup k c with
  | some _ => exact nodup_moved k v c h
  | none =>
    simp only
    have hn : (Cache.keys ((k, v) :: c)).Nodup := by
      rw [keys_cons, List.nodup_cons]
      refine ⟨?_, h⟩
      rw [mem_keys_iff, hc]
      exact fun hn => hn rfl
    split_ifs
    · exact List.Nodup.sublist (List.Sublist.map _ (List.dropLast_sublist _)) hn
    · exact hn

theorem length_Add_ge (size : Nat) (c : Cache) (k : Str) (v : stat)
    (h : (Cache.keys c).Nodup) (hl : size ≤ c.length) : size ≤ (Cache.Add size c k v).length := by
  unfold Cache.Add
  cases hc : Cache.lookup k c with
  | some _ =>
    simp only
    rw [List.length_cons, length_remove k c h (by rw [hc]; exact fun hn => Option.noConfusion hn)]
    exact hl
  | none =>
    simp only
    split_ifs
    · rw [List.length_dropLast, List.length_cons]; omega
    · rw [List.length_cons]; omega

theorem lookup_Add_evict (size : Nat) (c : Cache) (k k' : Str) (v : stat) (hne : k' ≠ k) :
    Cache.lookup k' (Cache.Add size c k v) = Cache.lookup k' c ∨
      size ≤ (Cache.Add size c k v).length := by
  unfold Cache.Add
  cases h : Cache.lookup k c with
  | some _ =>
    left
    simp only
    rw [lookup_cons_ne k k' v _ (Ne.symm hne)]
    exact lookup_remove_ne k k' c hne
  | none =>
    simp only
    split_ifs with hl
    · right
      rw [List.length_dropLast]
      simp only [List.length_cons] at hl ⊢
      omega
    · left; exact lookup_cons_ne k k' v c (Ne.symm hne)

theorem heldOrFull_Get (size : Nat) (p : Str) (c : Cache) (k : Str)
    (h : heldOrFull size p c) : heldOrFull size p (Cache.Get c k).2 := by
  refine ⟨nodup_Get c k h.1, ?_⟩
  rw [lookup_Get, length_Get c k h.1]
  exact h.2

theorem heldOrFull_Add (size : Nat) (p : Str) (c : Cache) (k : Str) (v : stat)
    (h : heldOrFull size p c) : heldOrFull size p (Cache.Add size c k v) := by
  refine ⟨nodup_Add size c k v h.1, ?_⟩
  rcases h.2 with hp | hfull
  · by_cases hk : p = k
    · by_cases hs : 1 ≤ size
      · left; rw [hk, lookup_Add_self size hs c k v]; exact fun hn => Option.noConfusion hn
      · right; omega
    · rcases lookup_Add_evict size c k p v hk with h1 | h1
      · left; rw [h1]; exact hp
      · right; exact h1
  · right; exact length_Add_ge size c k v h.1 hfull

theorem kept_run (env : Env) (post : List Op) (w : World) (p : Str) (e : stat)
    (h : Cache.lookup p w.fs.cache = some e)
    (hkeep : ∀ n, n ≤ post.length → Cache.lookup p (run env w (post.take n)).fs.cache ≠ none)
    (hnot : ∀ n op, post.get? n = some op →
      p ∉ rewrittenKeys env (run env w (post.take n)).fs op) :
    Cache.lookup p (run env w post).fs.cache = some e := by
  induction post generalizing w with
  | nil => exact h
  | cons op rest ih =>
    have h1 : Cache.lookup p (step env w op).fs.cache = some e := by
      rcases kept_step env w op p e h (hnot 0 op rfl) with h1 | h1
      · exact h1
      · exact absurd h1 (hkeep 1 (by simp))
    rw [run_cons]
    apply ih (step env w op) h1
    · intro n hn
      exact hkeep (n + 1) (by simpa using hn)
    · intro n op' hop
      exact hnot (n + 1) op' (by simpa using hop)

theorem nodup_run_init (env : Env) (ops : List Op) :
    (Cache.keys (run env World.init ops).fs.cache).Nodup :=
  run_invariant (fun c => (Cache.keys c).Nodup) env ops World.init
    (fun c k h => nodup_Get c k h) (fun c k v h => nodup_Add env.cacheSize c k v h)
    List.nodup_nil

/-! ## What a listing writes into the cache -/

theorem openDirStep_eq (env : Env) (name : Str) (acc : Option (List DirEntry) × gfs)
    (ent : RepositoryContent) :
    openDirStep env name acc ent =
      (appendEntry acc.1 (dirEntryOf ent),
        gfs.mk (Cache.Add env.cacheSize acc.2.cache (Join name ent.name)
          (childStat (env.now acc.2.ticks) ent)) acc.2.calls (acc.2.ticks + 1)) := by
  unfold openDirStep newFileInfo newDirInfo timeNow childStat dirEntryOf
  by_cases ht : ent.type = "file".toList
  · simp only [ht, if_true]
  · simp only [ht, if_false]

theorem openDirLoop_ticks (env : Env) (name : Str) (ds : List RepositoryContent)
    (acc : Option (List DirEntry) × gfs) :
    (ds.foldl (openDirStep env name) acc).2.ticks = acc.2.ticks + ds.length := by
  induction ds generalizing acc with
  | nil => rfl
  | cons ent rest ih =>
    rw [List.foldl_cons, ih, openDirStep_eq, List.length_cons]
    simp only
    omega

theorem lookup_Add_self_of_some (size : Nat) (c : Cache) (k : Str) (v st : stat)
    (h : Cache.lookup k (Cache.Add size c k v) = some st) : st = v := by
  unfold Cache.Add at h
  cases hc : Cache.lookup k c with
  | some _ =>
    rw [hc] at h
    simp only at h
    rw [lookup_cons_self] at h
    exact (Option.some.inj h).symm
  | none =>
    rw [hc] at h
    simp only at h
    split_ifs at h with hl
    · cases c with
      | nil => cases h
      | cons e c2 =>
        rw [List.dropLast_cons₂, lookup_cons_self] at h
        exact (Option.some.inj h).symm
    · rw [lookup_cons_self] at h
      exact (Option.some.inj h).symm

theorem lookup_Add_of_some (size : Nat) (c : Cache) (k k' : Str) (v st : stat) (hne : k' ≠ k)
    (h : Cache.lookup k' (Cache.Add size c k v) = some st) : Cache.lookup k' c = some st := by
  rcases lookup_Add_ne size c k k' v hne with h1 | h1
  · rw [← h1]; exact h
  · rw [h1] at h; cases h

theorem openDirLoop_of_some (env : Env) (name k : Str) (st : stat) (ds : List RepositoryContent)
    (acc : Option (List DirEntry) × gfs)
    (hk : k ∉ ds.map (fun d => Join name d.name))
    (h : Cache.lookup k (ds.foldl (openDirStep env name) acc).2.cache = some st) :
    Cache.lookup k acc.2.cache = some st := by
  induction ds generalizing acc with
  | nil => exact h
  | cons ent rest ih =>
    rw [List.map_cons, List.mem_cons, not_or] at hk
    rw [List.foldl_cons] at h
    have h1 := ih _ hk.2 h
    rw [openDirStep_eq] at h1
    exact lookup_Add_of_some env.cacheSize _ _ k _ st hk.1 h1

theorem openDirLoop_written (env : Env) (name k : Str) (st : stat) (ds : List RepositoryContent)
    (acc : Option (List DirEntry) × gfs)
    (hk : k ∈ ds.map (fun d => Join name d.name))
    (h : Cache.lookup k (ds.foldl (openDirStep env name) acc).2.cache = some st) :
    ∃ i d, ds.get? i = some d ∧ Join name d.name = k ∧
      st = childStat (env.now (acc.2.ticks + i)) d := by
  induction ds generalizing acc with
  | nil => cases hk
  | cons ent rest ih =>
    rw [List.foldl_cons] at h
    by_cases hr : k ∈ rest.map (fun d => Join name d.name)
    · obtain ⟨i, d, hi, hd, hst⟩ := ih _ hr h
      refine ⟨i + 1, d, hi, hd, ?_⟩
      rw [hst, openDirStep_eq]
      simp only
      rw [Nat.add_assoc, Nat.add_comm 1 i]
    · have hke : Join name ent.name = k := by
        rw [List.map_cons, List.mem_cons] at hk
        rcases hk with hk | hk
        · exact hk.symm
        · exact absurd hk hr
      have h1 := openDirLoop_of_some env name k st rest _ hr h
      rw [openDirStep_eq, ← hke] at h1
      exact ⟨0, ent, rfl, hke, lookup_Add_self_of_some env.cacheSize _ _ _ st h1⟩

theorem openDirStore_eq (env : Env) (fs : gfs) (name : Str) (ds : List RepositoryContent) :
    (openDirStore env fs name ds).2.cache =
      Cache.Add env.cacheSize (ds.foldl (openDirStep env name) (none, fs)).2.cache name
        (listingStat (env.now (fs.ticks + ds.length)) ds) := by
  unfold openDirStore newDirInfo timeNow listingStat
  simp only [openDirLoop_fst, openDirLoop_ticks]
  by_cases hd : ds = []
  · simp [hd]
  · simp [hd]

theorem openDirStore_listing (env : Env) (fs : gfs) (name : Str) (ds : List RepositoryContent)
    (hs : 1 ≤ env.cacheSize) :
    Cache.lookup name (openDirStore env fs name ds).2.cache =
      some (listingStat (env.now (fs.ticks + ds.length)) ds) := by
  rw [openDirStore_eq]
  exact lookup_Add_self env.cacheSize hs _ name _

theorem openDirStore_written (env : Env) (fs : gfs) (name k : Str) (st : stat)
    (ds : List RepositoryContent)
    (hk : k ∈ ds.map (fun d => Join name d.name)) (hne : k ≠ name)
    (h : Cache.lookup k (openDirStore env fs name ds).2.cache = some st) :
    ∃ i d, ds.get? i = some d ∧ Join name d.name = k ∧
      st = childStat (env.now (fs.ticks + i)) d := by
  rw [openDirStore_eq] at h
  exact openDirLoop_written env name k st ds (none, fs) hk
    (lookup_Add_of_some env.cacheSize _ _ k _ st hne h)

theorem OpenDir_fetch (env : Env) (fs : gfs) (name : Str) (ds : List RepositoryContent)
    (h : openDirListing env fs name = some ds) :
    OpenDir env fs name = openDirStore env (afterQuery fs name) name ds := by
  unfold openDirListing at h
  split_ifs at h with h1 h2 h3
  have hno : hasCachedListing fs name = false := by
    cases hc : hasCachedListing fs name with
    | true => exact absurd hc h1
    | false => rfl
  rw [OpenDir_uncached env fs name hno, if_neg h2, if_neg h3, h]

theorem childStat_kind (t : Nat) (ent : RepositoryContent) :
    ∃ a, (childStat t ent).attr = some a ∧
      a.mode &&& S_IFMT = (if ent.type = "file".toList then S_IFREG else S_IFDIR) ∧
      a.size = uint64 ent.size := by
  refine ⟨_, rfl, ?_, rfl⟩
  by_cases ht : ent.type = "file".toList
  · simp only [ht, if_true]
    decide
  · simp only [ht, if_false]
    decide

/-- C9, amended: when `OpenDir` has no cached listing for a path `p` of at least three segments
and the remote answers with a list of children, it returns status OK with exactly one entry per
remote child, in the remote order, each carrying that child's name and the mode 0444 whatever
the child's kind, so no entry has file type bits. The kind of a child is recorded only in the
attribute cached for the child under `Join(p, name)`: when the list is shorter than the cache
size, every child has such a cache entry on return; and an entry that the cache holds on return
under the joined path of a child, other than `p` itself, has status OK, no listing, and the size
and kind of a listed child with that joined path, the kind being regular file for the type
`file` and directory for any other type. -/
theorem OpenDir_entries (env : Env) (fs : gfs) (name : Str) (ds : List RepositoryContent)
    (hno : hasCachedListing fs name = false)
    (hseg : 3 ≤ (SplitN name PathSeparator 4).length)
    (herr : (openDirQuery env fs name).err = none)
    (hds : (openDirQuery env fs name).ds = some ds) :
    (OpenDir env fs name).1.2 = OK ∧
      (OpenDir env fs name).1.1.getD [] = ds.map dirEntryOf ∧
      ((OpenDir env fs name).1.1.getD []).length = ds.length ∧
      ((OpenDir env fs name).1.1.getD []).map DirEntry.name = ds.map RepositoryContent.name ∧
      (∀ e ∈ (OpenDir env fs name).1.1.getD [], e.mode = 0o444 ∧ e.kindBits = 0) ∧
      (OpenDir env fs name).2.calls = fs.calls + 1 ∧
      (ds.length < env.cacheSize →
        ∀ d ∈ ds, Cache.lookup (Join name d.name) (OpenDir env fs name).2.cache ≠ none) ∧
      (∀ d ∈ ds, ∀ st,
        Cache.lookup (Join name d.name) (OpenDir env fs name).2.cache = some st →
        Join name d.name ≠ name →
        st.status = OK ∧ st.entries = none ∧
          ∃ d' ∈ ds, Join name d'.name = Join name d.name ∧
            ∃ a, st.attr = some a ∧ a.size = uint64 d'.size ∧
              a.mode &&& S_IFMT = (if d'.type = "file".toList then S_IFREG else S_IFDIR)) := by
  have he' : ¬ (openDirQuery env fs name).err.isSome = true := by
    rw [herr]; simp
  have h : OpenDir env fs name = openDirStore env (afterQuery fs name) name ds := by
    rw [OpenDir_uncached env fs name hno, if_neg (by omega), if_neg he', hds]
  have hent : (OpenDir env fs name).1.1.getD [] = ds.map dirEntryOf := by
    rw [h, openDirStore_fst]
    by_cases hd : ds = []
    · simp [hd]
    · simp [hd]
  refine ⟨?_, hent, ?_, ?_, ?_, ?_, ?_, ?_⟩
  · rw [h, openDirStore_fst]
  · rw [hent, List.length_map]
  · rw [hent, List.map_map]; rfl
  · intro e he
    rw [hent, List.mem_map] at he
    obtain ⟨ent, _, rfl⟩ := he
    exact ⟨rfl, kindBits_dirEntryOf ent⟩
  · rw [h, openDirStore_calls]; rfl
  · intro hcap d hd
    rw [h]
    exact openDirStore_children_cached env _ name ds hcap d hd
  · intro d hd st hst hne
    rw [h] at hst
    obtain ⟨i, d', hi, hk, rfl⟩ := openDirStore_written env (afterQuery fs name) name
      (Join name d.name) st ds (List.mem_map_of_mem _ hd) hne hst
    obtain ⟨a, ha, hkind, hsize⟩ := childStat_kind (env.now ((afterQuery fs name).ticks + i)) d'
    exact ⟨rfl, rfl, d', List.get?_mem hi, hk, a, ha, hsize, hkind⟩

/-- C9 amended, at the root of the sample repository behind a cache of size four: the call
returns OK, and the cache entry of the child `README`, of type `file`, has the regular-file kind
that its directory entry lacks. -/
theorem OpenDir_entries_witness :
    hasCachedListing gfs.init "acme/myrepo/main".toList = false ∧
      3 ≤ (SplitN "acme/myrepo/main".toList PathSeparator 4).length ∧
      (openDirQuery (sampleEnv 4) gfs.init "acme/myrepo/main".toList).err = none ∧
      (openDirQuery (sampleEnv 4) gfs.init "acme/myrepo/main".toList).ds =
        some [{ type := "dir".toList, name := "src".toList, size := 0,
                content := GetContentOutcome.content [] },
              { type := "file".toList, name := "README".toList, size := 5,
                content := GetContentOutcome.content [] }] ∧
      (OpenDir (sampleEnv 4) gfs.init "acme/myrepo/main".toList).1.2 = OK ∧
      Cache.lookup (Join "acme/myrepo/main".toList "README".toList)
          (OpenDir (sampleEnv 4) gfs.init "acme/myrepo/main".toList).2.cache =
        some { attr := some { size := 5, atime := 1001, mtime := 1001, ctime := 1001,
                              mode := S_IFREG ||| 0o444 },
               status := OK, entries := none } ∧
      ∃ d' ∈ [({ type := "dir".toList, name := "src".toList, size := 0,
                 content := GetContentOutcome.content [] } : RepositoryContent),
              { type := "file".toList, name := "README".toList, size := 5,
                content := GetContentOutcome.content [] }],
        Join "acme/myrepo/main".toList d'.name =
            Join "acme/myrepo/main".toList "README".toList ∧
          ∃ a, (some { size := 5, atime := 1001, mtime := 1001, ctime := 1001,
                       mode := S_IFREG ||| 0o444 } : Option Attr) = some a ∧
            a.size = uint64 d'.size ∧
            a.mode &&& S_IFMT = (if d'.type = "file".toList then S_IFREG else S_IFDIR) :=
  ⟨rfl, by decide, rfl, rfl,
    (OpenDir_entries (sampleEnv 4) gfs.init "acme/myrepo/main".toList
      [{ type := "dir".toList, name := "src".toList, size := 0,
         content := GetContentOutcome.content [] },
       { type := "file".toList, name := "README".toList, size := 5,
         content := GetContentOutcome.content [] }]
      rfl (by decide) rfl rfl).1,
    by decide,
    ((OpenDir_entries (sampleEnv 4) gfs.init "acme/myrepo/main".toList
      [{ type := "dir".toList, name := "src".toList, size := 0,
         content := GetContentOutcome.content [] },
       { type := "file".toList, name := "README".toList, size := 5,
         content := GetContentOutcome.content [] }]
      rfl (by decide) rfl rfl).2.2.2.2.2.2.2
        { type := "file".toList, name := "README".toList, size := 5,
          content := GetContentOutcome.content [] }
        (by decide)
        { attr := some { size := 5, atime := 1001, mtime := 1001, ctime := 1001,
                         mode := S_IFREG ||| 0o444 },
          status := OK, entries := none }
        (by decide) (by decide)).2.2⟩

/-- C10 fails: in the sample repository `GetAttr` on the directory `acme/myrepo/main/src`
writes an entry without listing, and `OpenDir` on the same path then writes over it, while it
is still in the cache, an entry with a listing and a later timestamp. -/
theorem OpenDir_rewrites_entry :
    Cache.lookup "acme/myrepo/main/src".toList
        (run (sampleEnv 4) World.init [Op.getAttr "acme/myrepo/main/src".toList]).fs.cache =
        some { attr := some (dirAttr 0o555 1000), status := OK, entries := none } ∧
      Cache.lookup "acme/myrepo/main/src".toList
        (run (sampleEnv 4) World.init
          [Op.getAttr "acme/myrepo/main/src".toList,
           Op.openDir "acme/myrepo/main/src".toList]).fs.cache =
        some { attr := some (dirAttr 0o555 1002), status := OK,
               entries := some [{ name := "a.go".toList, mode := 0o444 }] } := by
  decide

/-- C10, amended: take any sequence of calls from the empty cache after which a path `p` has an
entry `e`. (1) Over any further calls, as long as `p` stays in the cache and no `OpenDir` fetches
a remote listing of `p` or of a directory listing it as a child, the entry keeps its attribute,
status and listing. (2) A call of `GetAttr`, `Open` or `Read` leaves the entry as it is, unless
the entry leaves the cache. (3) An `OpenDir(p)` that fetches a remote listing writes over the
entry, whatever it was: behind a cache of size at least one, the entry of `p` is then the new
directory attribute, stamped after the children, with the fetched listing. (4) An `OpenDir` that
fetches a remote listing of another directory with a child whose joined path is `p` writes over
the entry too: the entry of `p`, if the cache still holds one, is then the one written for such
a child at the time of this call, and the cache does hold one when the listing is shorter than
the cache size. (5) A call after which `p` has no entry any more leaves the cache full: an entry
is only removed by eviction. -/
theorem cache_entry_rewritten_only_by_listing (env : Env) (pre post : List Op) (p : Str)
    (e : stat) (h : Cache.lookup p (run env World.init pre).fs.cache = some e) :
    ((∀ n, n ≤ post.length →
          Cache.lookup p (run env World.init (pre ++ post.take n)).fs.cache ≠ none) →
        (∀ n op, post.get? n = some op →
          p ∉ rewrittenKeys env (run env World.init (pre ++ post.take n)).fs op) →
        Cache.lookup p (run env World.init (pre ++ post)).fs.cache = some e) ∧
      (∀ op, (∀ name, op ≠ Op.openDir name) →
        Cache.lookup p (step env (run env World.init pre) op).fs.cache = some e ∨
          Cache.lookup p (step env (run env World.init pre) op).fs.cache = none) ∧
      (∀ ds, openDirListing env (run env World.init pre).fs p = some ds → 1 ≤ env.cacheSize →
        Cache.lookup p (step env (run env World.init pre) (Op.openDir p)).fs.cache =
          some (listingStat (env.now ((run env World.init pre).fs.ticks + ds.length)) ds)) ∧
      (∀ dir ds, openDirListing env (run env World.init pre).fs dir = some ds →
        p ∈ ds.map (fun d => Join dir d.name) → p ≠ dir →
        (ds.length < env.cacheSize →
          Cache.lookup p (step env (run env World.init pre) (Op.openDir dir)).fs.cache ≠ none) ∧
        ∀ st, Cache.lookup p (step env (run env World.init pre) (Op.openDir dir)).fs.cache =
            some st →
          ∃ i d, ds.get? i = some d ∧ Join dir d.name = p ∧
            st = childStat (env.now ((run env World.init pre).fs.ticks + i)) d) ∧
      (∀ op,
        Cache.lookup p (step env (run env World.init pre) op).fs.cache = none →
        env.cacheSize ≤ (step env (run env World.init pre) op).fs.cache.length) := by
  refine ⟨?_, ?_, ?_, ?_, ?_⟩
  · intro hkeep hnot
    rw [run_append]
    apply kept_run env post (run env World.init pre) p e h
    · intro n hn
      rw [← run_append]; exact hkeep n hn
    · intro n op hop
      rw [← run_append]; exact hnot n op hop
  · intro op hop
    apply kept_step env (run env World.init pre) op p e h
    cases op with
    | openDir name => exact absurd rfl (hop name)
    | getAttr name => exact List.not_mem_nil p
    | openFile name flags => exact List.not_mem_nil p
    | read hd buflen off => exact List.not_mem_nil p
  · intro ds hl hs
    simp only [step]
    rw [OpenDir_fetch env _ p ds hl]
    exact openDirStore_listing env (afterQuery (run env World.init pre).fs p) p ds hs
  · intro dir ds hl hp hne
    simp only [step]
    rw [OpenDir_fetch env _ dir ds hl]
    refine ⟨fun hcap => ?_, fun st hst => ?_⟩
    · rw [List.mem_map] at hp
      obtain ⟨d, hd, rfl⟩ := hp
      exact openDirStore_children_cached env _ dir ds hcap d hd
    · exact openDirStore_written env (afterQuery (run env World.init pre).fs dir) dir p st ds
        hp hne hst
  · intro op hgone
    have hinv : heldOrFull env.cacheSize p (run env World.init pre).fs.cache :=
      ⟨nodup_run_init env pre, Or.inl (by rw [h]; exact fun hn => Option.noConfusion hn)⟩
    have hstep := step_invariant (heldOrFull env.cacheSize p) (fun _ => True) env
      (run env World.init pre) op (fun c k hc => heldOrFull_Get env.cacheSize p c k hc)
      (fun c k v _ hc => heldOrFull_Add env.cacheSize p c k v hc) (fun _ _ => trivial) hinv
    rcases hstep.2 with h1 | h1
    · exact absurd hgone h1
    · exact h1

/-- C10 amended, in the sample repository. Behind a cache of size four, the entry that `GetAttr`
writes for the file `README` is still the same after a `GetAttr` on the directory `src` and an
`OpenDir` that fetches the listing of `src`; the entry that `GetAttr` writes for `src` is
replaced, by an `OpenDir` on `src`, with the listing entry stamped 1002; and the entry that
`GetAttr` writes for `README`, stamped 1000, is replaced, by an `OpenDir` on the root, with the
entry of the second listed child, stamped 1002. Behind a cache of size one, a `GetAttr` on `src`
removes the entry of `README`, and the cache is full. -/
theorem cache_entry_rewritten_only_by_listing_witness :
    (Cache.lookup "acme/myrepo/main/README".toList
        (run (sampleEnv 4) World.init [Op.getAttr "acme/myrepo/main/README".toList]).fs.cache =
        some { attr := some { size := 5, atime := 1000, mtime := 1000, ctime := 1000,
                              mode := S_IFREG ||| 0o444 },
               status := OK, entries := none } ∧
      Cache.lookup "acme/myrepo/main/README".toList
        (run (sampleEnv 4) World.init
          ([Op.getAttr "acme/myrepo/main/README".toList] ++
            [Op.getAttr "acme/myrepo/main/src".toList,
             Op.openDir "acme/myrepo/main/src".toList])).fs.cache =
        some { attr := some { size := 5, atime := 1000, mtime := 1000, ctime := 1000,
                              mode := S_IFREG ||| 0o444 },
               status := OK, entries := none }) ∧
      (Cache.lookup "acme/myrepo/main/src".toList
        (run (sampleEnv 4) World.init [Op.getAttr "acme/myrepo/main/src".toList]).fs.cache =
        some { attr := some (dirAttr 0o555 1000), status := OK, entries := none } ∧
      Cache.lookup "acme/myrepo/main/src".toList
        (step (sampleEnv 4)
          (run (sampleEnv 4) World.init [Op.getAttr "acme/myrepo/main/src".toList])
          (Op.openDir "acme/myrepo/main/src".toList)).fs.cache =
        some { attr := some (dirAttr 0o555 1002), status := OK,
               entries := some [{ name := "a.go".toList, mode := 0o444 }] }) ∧
      (Cache.lookup "acme/myrepo/main/README".toList
          (step (sampleEnv 4)
            (run (sampleEnv 4) World.init [Op.getAttr "acme/myrepo/main/README".toList])
            (Op.openDir "acme/myrepo/main".toList)).fs.cache =
          some { attr := some { size := 5, atime := 1002, mtime := 1002, ctime := 1002,
                                mode := S_IFREG ||| 0o444 },
                 status := OK, entries := none } ∧
        ∃ i d,
          [({ type := "dir".toList, name := "src".toList, size := 0,
              content := GetContentOutcome.content [] } : RepositoryContent),
           { type := "file".toList, name := "README".toList, size := 5,
             content := GetContentOutcome.content [] }].get? i = some d ∧
          Join "acme/myrepo/main".toList d.name = "acme/myrepo/main/README".toList ∧
          ({ attr := some { size := 5, atime := 1002, mtime := 1002, ctime := 1002,
                            mode := S_IFREG ||| 0o444 },
             status := OK, entries := none } : stat) =
            childStat ((sampleEnv 4).now
              ((run (sampleEnv 4) World.init
                [Op.getAttr "acme/myrepo/main/README".toList]).fs.ticks + i)) d) ∧
      (Cache.lookup "acme/myrepo/main/README".toList
        (run (sampleEnv 1) World.init [Op.getAttr "acme/myrepo/main/README".toList]).fs.cache =
        some { attr := some { size := 5, atime := 1000, mtime := 1000, ctime := 1000,
                              mode := S_IFREG ||| 0o444 },
               status := OK, entries := none } ∧
      Cache.lookup "acme/myrepo/main/README".toList
        (step (sampleEnv 1)
          (run (sampleEnv 1) World.init [Op.getAttr "acme/myrepo/main/README".toList])
          (Op.getAttr "acme/myrepo/main/src".toList)).fs.cache = none ∧
      (sampleEnv 1).cacheSize ≤
        (step (sampleEnv 1)
          (run (sampleEnv 1) World.init [Op.getAttr "acme/myrepo/main/README".toList])
          (Op.getAttr "acme/myrepo/main/src".toList)).fs.cache.length) :=
  ⟨⟨by decide,
      (cache_entry_rewritten_only_by_listing (sampleEnv 4)
        [Op.getAttr "acme/myrepo/main/README".toList]
        [Op.getAttr "acme/myrepo/main/src".toList, Op.openDir "acme/myrepo/main/src".toList]
        "acme/myrepo/main/README".toList
        { attr := some { size := 5, atime := 1000, mtime := 1000, ctime := 1000,
                         mode := S_IFREG ||| 0o444 },
          status := OK, entries := none } (by decide)).1
        (by
          intro n hn
          have hn' : n ≤ 2 := hn
          interval_cases n <;> decide)
        (by
          intro n op hop
          rcases n with _ | _ | n
          · cases hop; decide
          · cases hop; decide
          · cases hop)⟩,
    ⟨by decide,
      ((cache_entry_rewritten_only_by_listing (sampleEnv 4)
        [Op.getAttr "acme/myrepo/main/src".toList] [] "acme/myrepo/main/src".toList
        { attr := some (dirAttr 0o555 1000), status := OK, entries := none } (by decide)).2.2.1
        [{ type := "file".toList, name := "a.go".toList, size := 3,
           content := GetContentOutcome.content [] }]
        (by decide) (by decide)).trans (by decide)⟩,
    ⟨by decide,
      ((cache_entry_rewritten_only_by_listing (sampleEnv 4)
        [Op.getAttr "acme/myrepo/main/README".toList] [] "acme/myrepo/main/README".toList
        { attr := some { size := 5, atime := 1000, mtime := 1000, ctime := 1000,
                         mode := S_IFREG ||| 0o444 },
          status := OK, entries := none } (by decide)).2.2.2.1
        "acme/myrepo/main".toList
        [{ type := "dir".toList, name := "src".toList, size := 0,
           content := GetContentOutcome.content [] },
         { type := "file".toList, name := "README".toList, size := 5,
           content := GetContentOutcome.content [] }]
        (by decide) (by decide) (by decide)).2
        { attr := some { size := 5, atime := 1002, mtime := 1002, ctime := 1002,
                         mode := S_IFREG ||| 0o444 },
          status := OK, entries := none } (by decide)⟩,
    ⟨by decide, by decide,
      (cache_entry_rewritten_only_by_listing (sampleEnv 1)
        [Op.getAttr "acme/myrepo/main/README".toList] [] "acme/myrepo/main/README".toList
        { attr := some { size := 5, atime := 1000, mtime := 1000, ctime := 1000,
                         mode := S_IFREG ||| 0o444 },
          status := OK, entries := none } (by decide)).2.2.2.2
        (Op.getAttr "acme/myrepo/main/src".toList) (by decide)⟩⟩

/-! ## `filepath.Join` on host paths -/

theorem SplitN_full (c : Char) (n : Nat) (s : Str) (h : s.count c < n) :
    SplitN s c n = SplitN s c (s.count c + 1) := by
  induction n generalizing s with
  | zero => omega
  | succ m ih =>
    cases m with
    | zero =>
      have : s.count c = 0 := by omega
      rw [this]
    | succ m' =>
      cases hc : cut c s with
      | none =>
        rw [count_of_cut_none hc]
        unfold SplitN
        rw [hc]
      | some pr =>
        obtain ⟨a, rest⟩ := pr
        have hcount := count_of_cut_some hc
        rw [hcount]
        unfold SplitN
        simp only [hc]
        rw [ih rest (by omega)]

theorem Split_eq (c : Char) (s : Str) : Split s c = SplitN s c (s.count c + 1) := by
  unfold Split
  exact SplitN_full c _ s (Nat.lt_succ_of_le (List.count_le_length c s))

theorem cut_append_of_none (c : Char) (s child : Str) (h : cut c s = none) :
    cut c (s ++ c :: child) = some (s, child) := by
  induction s with
  | nil => simp [cut]
  | cons x xs ih =>
    unfold cut at h
    by_cases hx : x = c
    · simp [hx] at h
    · simp only [hx, if_false] at h
      cases hxs : cut c xs with
      | some pr => simp [hxs] at h
      | none =>
        rw [List.cons_append]
        unfold cut
        simp only [hx, if_false, ih hxs]

theorem cut_append_of_some (c : Char) (s child a rest : Str) (h : cut c s = some (a, rest)) :
    cut c (s ++ c :: child) = some (a, rest ++ c :: child) := by
  induction s generalizing a with
  | nil => simp [cut] at h
  | cons x xs ih =>
    unfold cut at h
    rw [List.cons_append]
    by_cases hx : x = c
    · simp only [hx, if_true, Option.some.injEq, Prod.mk.injEq] at h
      obtain ⟨rfl, rfl⟩ := h
      unfold cut
      simp [hx]
    · simp only [hx, if_false] at h
      cases hxs : cut c xs with
      | none => simp [hxs] at h
      | some pr =>
        obtain ⟨a', rest'⟩ := pr
        simp only [hxs, Option.some.injEq, Prod.mk.injEq] at h
        obtain ⟨rfl, rfl⟩ := h
        unfold cut
        simp only [hx, if_false, ih a' hxs]

theorem SplitN_append (c : Char) (child : Str) (n : Nat) (s : Str) (hn : s.count c = n) :
    SplitN (s ++ c :: child) c (n + 2) = SplitN s c (n + 1) ++ [child] := by
  induction n generalizing s with
  | zero =>
    have hc : cut c s = none := cut_eq_none.mpr (List.count_eq_zero.mp hn)
    unfold SplitN
    simp only [cut_append_of_none c s child hc]
    rfl
  | succ n ih =>
    cases hc : cut c s with
    | none => rw [count_of_cut_none hc] at hn; omega
    | some pr =>
      obtain ⟨a, rest⟩ := pr
      have hcount := count_of_cut_some hc
      unfold SplitN
      simp only [cut_append_of_some c s child a rest hc, hc]
      rw [ih rest (by omega)]
      rfl

theorem Split_append (c : Char) (s child : Str) (hchild : c ∉ child) :
    Split (s ++ c :: child) c = Split s c ++ [child] := by
  rw [Split_eq, Split_eq]
  have hcount : (s ++ c :: child).count c = s.count c + 1 := by
    rw [List.count_append, List.count_cons_self, List.count_eq_zero.mpr hchild]
  rw [hcount]
  exact SplitN_append c child (s.count c) s rfl

theorem joinSep_Split (c : Char) (s : Str) : joinSep c (Split s c) = s :=
  joinSep_SplitN c s.length s

theorem cleanPush_valid (rooted : Bool) (st : List Str) (e : Str) (h : ValidName e) :
    cleanPush rooted st e = e :: st := by
  unfold cleanPush
  obtain ⟨h1, _, h3, h4⟩ := h
  rw [if_neg (by rintro (h | h); exact h1 h; exact h3 h), if_neg h4]

theorem foldl_cleanPush_valid (rooted : Bool) (comps : List Str) (st : List Str)
    (h : ∀ c ∈ comps, ValidName c) :
    comps.foldl (cleanPush rooted) st = comps.reverse ++ st := by
  induction comps generalizing st with
  | nil => rfl
  | cons e rest ih =>
    rw [List.foldl_cons, cleanPush_valid rooted st e (h e (List.mem_cons_self _ _)),
      ih _ (fun c hc => h c (List.mem_cons_of_mem _ hc))]
    simp

theorem Split_head_of_rooted (t : Str) : [] ∈ Split (PathSeparator :: t) PathSeparator := by
  unfold Split
  rw [List.length_cons]
  unfold SplitN
  simp [cut]

theorem Clean_of_valid (p : Str) (hp : p ≠ [])
    (h : ∀ c ∈ Split p PathSeparator, ValidName c) : Clean p = p := by
  have hroot : ¬ p.head? = some PathSeparator := by
    intro hr
    cases p with
    | nil => exact hp rfl
    | cons x t =>
      simp only [List.head?_cons, Option.some.injEq] at hr
      subst hr
      exact (h [] (Split_head_of_rooted t)).1 rfl
  unfold Clean
  rw [if_neg hp]
  simp only [hroot, decide_False, Bool.false_eq_true, if_false]
  rw [foldl_cleanPush_valid _ _ _ h]
  simp only [List.append_nil, List.reverse_reverse, joinSep_Split]
  rw [if_neg hp]

theorem Join_of_valid (name child : Str) (hn : name ≠ []) (hp : HostPath name)
    (hc : ValidName child) : Join name child = name ++ PathSeparator :: child := by
  unfold Join
  rw [if_pos hn]
  apply Clean_of_valid
  · simp
  · intro c hcm
    rw [Split_append PathSeparator name child hc.2.1, List.mem_append] at hcm
    rcases hcm with hcm | hcm
    · rcases hp with hp | hp
      · exact absurd hp hn
      · exact hp c hcm
    · rw [List.mem_singleton] at hcm
      rw [hcm]; exact hc

theorem segments_Join (name child : Str) (hp : HostPath name) (hc : ValidName child)
    (hseg : 3 ≤ (SplitN name PathSeparator 4).length) :
    3 ≤ (SplitN (Join name child) PathSeparator 4).length := by
  have hn : name ≠ [] := by
    intro h
    rw [h] at hseg
    exact absurd hseg (by decide)
  rw [Join_of_valid name child hn hp hc]
  rw [SplitN_length PathSeparator 3] at hseg ⊢
  rw [List.count_append, List.count_cons_self]
  omega

/-! ## Browsing levels are never cached -/

theorem concreteKeys_Get (c : Cache) (k : Str) (h : concreteKeys c) :
    concreteKeys (Cache.Get c k).2 :=
  fun k' hk' => h k' (keys_Get_subset c k k' hk')

theorem concreteKeys_Add (size : Nat) (c : Cache) (k : Str) (v : stat)
    (hk : 3 ≤ (SplitN k PathSeparator 4).length) (h : concreteKeys c) :
    concreteKeys (Cache.Add size c k v) := by
  intro k' hk'
  rcases keys_Add_subset size c k k' v hk' with h1 | h1
  · rw [h1]; exact hk
  · exact h k' h1

theorem addedKeys_concrete (env : Env) (fs : gfs) (op : Op)
    (hnames : ∀ i org repo path ref ds, (env.GetContents i org repo path ref).ds = some ds →
      ∀ d ∈ ds, ValidName d.name)
    (hpath : ∀ dir, op = Op.openDir dir → HostPath dir) :
    ∀ k ∈ addedKeys env fs op, 3 ≤ (SplitN k PathSeparator 4).length := by
  intro k hk
  cases op with
  | getAttr name =>
    simp only [addedKeys] at hk
    split_ifs at hk with hc
    · rw [List.mem_singleton] at hk
      rw [hk]; omega
    · cases hk
  | openDir name =>
    simp only [addedKeys, rewrittenKeys, openDirListing] at hk
    split_ifs at hk with h1 h2 h3
    · cases hk
    · cases hk
    · cases hk
    · cases hds : (openDirQuery env fs name).ds with
      | none => rw [hds] at hk; cases hk
      | some ds =>
        rw [hds] at hk
        have hseg : 3 ≤ (SplitN name PathSeparator 4).length := by omega
        rcases List.mem_cons.mp hk with hk | hk
        · rw [hk]; exact hseg
        · rw [List.mem_map] at hk
          obtain ⟨d, hd, rfl⟩ := hk
          exact segments_Join name d.name (hpath name rfl)
            (hnames _ _ _ _ _ ds hds d hd) hseg
  | openFile name flags => cases hk
  | read hd buflen off => cases hk

theorem concreteKeys_run (env : Env) (ops : List Op) (w : World)
    (hnames : ∀ i org repo path ref ds, (env.GetContents i org repo path ref).ds = some ds →
      ∀ d ∈ ds, ValidName d.name)
    (hpaths : ∀ dir, Op.openDir dir ∈ ops → HostPath dir)
    (h : concreteKeys w.fs.cache) : concreteKeys (run env w ops).fs.cache := by
  induction ops generalizing w with
  | nil => exact h
  | cons op rest ih =>
    rw [run_cons]
    apply ih _ (fun dir hd => hpaths dir (List.mem_cons_of_mem _ hd))
    exact step_invariant concreteKeys (fun k => 3 ≤ (SplitN k PathSeparator 4).length) env w op
      concreteKeys_Get (fun c k v hk hc => concreteKeys_Add env.cacheSize c k v hk hc)
      (addedKeys_concrete env w.fs op hnames
        (fun dir hd => hpaths dir (hd ▸ List.mem_cons_self _ _)))
      h

theorem dirAttr_kind (mask t : Nat) (hm : mask &&& S_IFMT = 0) :
    (dirAttr mask t).mode &&& S_IFMT = S_IFDIR := by
  show (S_IFDIR ||| mask) &&& S_IFMT = S_IFDIR
  rw [Nat.and_distrib_right, hm]
  decide

theorem dirAttr_perm (mask t : Nat) (hm : mask &&& 0o777 = mask) :
    (dirAttr mask t).mode &&& 0o777 = mask := by
  show (S_IFDIR ||| mask) &&& 0o777 = mask
  rw [Nat.and_distrib_right, hm]
  have : S_IFDIR &&& 0o777 = 0 := by decide
  rw [this, Nat.zero_or]

theorem sampleRemote_names (i : Nat) (org repo path ref : Str) (ds : List RepositoryContent)
    (h : (sampleRemote i org repo path ref).ds = some ds) : ∀ d ∈ ds, ValidName d.name := by
  unfold sampleRemote at h
  split_ifs at h <;> cases h <;> decide

/-- C4 fails when a key of one or two segments gets into the cache, which `filepath.Join`
allows: a remote child named `..` under `acme/myrepo/main` is cached under `acme/myrepo`, and a
child `src` of the path `acme//` is cached under `acme/src`; `GetAttr` then answers from the
cache with the attribute of mask 0555 written for the child. -/
theorem GetAttr_browsing_level_from_cache :
    (SplitN "acme/myrepo".toList PathSeparator 4).length = 2 ∧
      Join "acme/myrepo/main".toList "..".toList = "acme/myrepo".toList ∧
      (GetAttr dotdotEnv (run dotdotEnv World.init [Op.openDir "acme/myrepo/main".toList]).fs
        "acme/myrepo".toList).1 = (some (dirAttr 0o555 1000), OK) ∧
      (SplitN "acme/src".toList PathSeparator 4).length = 2 ∧
      Join "acme//".toList "src".toList = "acme/src".toList ∧
      (GetAttr (sampleEnv 4) (run (sampleEnv 4) World.init [Op.openDir "acme//".toList]).fs
        "acme/src".toList).1 = (some (dirAttr 0o555 1000), OK) ∧
      dirAttr 0o555 1000 ≠ dirAttr 0o111 1003 := by
  decide

/-- C4, amended: after any sequence of `GetAttr`, `OpenDir`, `Open` and `Read` calls from the
empty cache in which the paths given to `OpenDir` are the root or file names joined by
separators, and with a remote provider whose listings name their children by file names,
`GetAttr` on a path of one or two segments returns status OK and the synthetic directory
attribute of mask 0111 (directory kind, execute-only permission bits), issues no remote call and
leaves the cache as it is. -/
theorem GetAttr_browsing_level (env : Env) (ops : List Op) (name : Str)
    (hnames : ∀ i org repo path ref ds, (env.GetContents i org repo path ref).ds = some ds →
      ∀ d ∈ ds, ValidName d.name)
    (hpaths : ∀ dir, Op.openDir dir ∈ ops → HostPath dir)
    (hseg : (SplitN name PathSeparator 4).length ≤ 2) :
    GetAttr env (run env World.init ops).fs name =
        ((some (dirAttr 0o111 (env.now (run env World.init ops).fs.ticks)), OK),
          { (run env World.init ops).fs with ticks := (run env World.init ops).fs.ticks + 1 }) ∧
      (dirAttr 0o111 (env.now (run env World.init ops).fs.ticks)).mode &&& S_IFMT = S_IFDIR ∧
      (dirAttr 0o111 (env.now (run env World.init ops).fs.ticks)).mode &&& 0o777 = 0o111 ∧
      (GetAttr env (run env World.init ops).fs name).1.2 = OK ∧
      (GetAttr env (run env World.init ops).fs name).2.calls =
        (run env World.init ops).fs.calls ∧
      (GetAttr env (run env World.init ops).fs name).2.cache =
        (run env World.init ops).fs.cache := by
  have hinv : concreteKeys (run env World.init ops).fs.cache :=
    concreteKeys_run env ops World.init hnames hpaths (by intro k hk; cases hk)
  have hmiss : Cache.lookup name (run env World.init ops).fs.cache = none := by
    by_contra hc
    have := hinv name ((mem_keys_iff name _).mpr hc)
    omega
  have hg := GetAttr_miss_short env (run env World.init ops).fs name hmiss (by omega)
  refine ⟨hg, dirAttr_kind 0o111 _ (by decide), dirAttr_perm 0o111 _ (by decide), ?_, ?_, ?_⟩
  · rw [hg]
  · rw [hg]
  · rw [hg]

/-- C4 amended, in the sample repository, after the root has been listed and a file looked up: the
path `acme/myrepo` of two segments. -/
theorem GetAttr_browsing_level_witness :
    HostPath "acme/myrepo/main".toList ∧
      (SplitN "acme/myrepo".toList PathSeparator 4).length ≤ 2 ∧
      (GetAttr (sampleEnv 4)
        (run (sampleEnv 4) World.init
          [Op.openDir "acme/myrepo/main".toList,
           Op.getAttr "acme/myrepo/main/README".toList]).fs "acme/myrepo".toList).1 =
        (some (dirAttr 0o111 1003), OK) :=
  ⟨by decide, by decide,
    (congrArg Prod.fst
      (GetAttr_browsing_level (sampleEnv 4)
        [Op.openDir "acme/myrepo/main".toList, Op.getAttr "acme/myrepo/main/README".toList]
        "acme/myrepo".toList sampleRemote_names
        (by
          intro dir hd
          simp only [List.mem_cons, Op.openDir.injEq, List.mem_singleton, reduceCtorEq,
            or_false, List.not_mem_nil] at hd
          rw [hd]
          decide)
        (by decide)).1).trans (by decide)⟩

end ghvfs
